import Mathlib

/-!
Shallow embedding of the experiment-framework core of qiskit-experiments
(`qiskit_experiments/framework/base_experiment.py` and
`qiskit_experiments/framework/composite/composite_experiment.py`),
with theorems settling the claims about configuration capture, option
namespaces, job batching, composite recursion, copying and metadata.

Python values appearing as option values, constructor arguments, qubit
lists and so on are modelled by the inductive `PyVal`.  The qiskit
`Options` object (`qiskit.providers.options.Options`) is an attribute
bag whose state is its `__dict__`: it is modelled by `OptMap`, an
ordered association list with Python-`dict` update semantics
(`update_options` updates existing keys in place and appends new ones).
Raised Python exceptions are modelled by `Except PyErr`.
-/

/-- Model of the Python values the framework stores and moves around. -/
inductive PyVal where
  | int : Int → PyVal
  | str : String → PyVal
  | bool : Bool → PyVal
  | pyNone : PyVal
  | intList : List Int → PyVal
deriving DecidableEq

/-- Model of the Python exceptions raised by the embedded code. -/
inductive PyErr where
  | qiskitError (msg : String)
  | attributeError (msg : String)
  | typeError (msg : String)
  | indexError
deriving DecidableEq

/-- Model of a qiskit `Options` attribute bag (its `__dict__`): an ordered
association list of field name and value. -/
abbrev OptMap := List (String × PyVal)

/-- Python `hasattr(options, k)`: the field is present in the bag. -/
def OptMap.hasattr (m : OptMap) (k : String) : Bool :=
  m.any (fun p => p.1 == k)

/-- Python `getattr(options, k)`: the stored value, when present. -/
def OptMap.getattr (m : OptMap) (k : String) : Option PyVal :=
  (m.find? (fun p => p.1 == k)).map (fun p => p.2)

/-- Python dict assignment `d[k] = v`: replace in place when the key is
present, append otherwise. -/
def OptMap.update_one (m : OptMap) (k : String) (v : PyVal) : OptMap :=
  if m.hasattr k then m.map (fun p => if p.1 = k then (p.1, v) else p)
  else m ++ [(k, v)]

/-- Qiskit `Options.update_options(**fields)`: `self.__dict__.update(fields)`. -/
def OptMap.update_options (m : OptMap) (fields : List (String × PyVal)) : OptMap :=
  fields.foldl (fun acc p => acc.update_one p.1 p.2) m

/-- Key set of a field list (the names passed as keyword arguments). -/
def fieldKeys (fields : List (String × PyVal)) : List String :=
  fields.map (fun p => p.1)

@[simp] theorem OptMap.getattr_nil (k : String) :
    OptMap.getattr [] k = none := rfl

theorem OptMap.getattr_cons (p : String × PyVal) (m : OptMap) (k : String) :
    OptMap.getattr (p :: m) k =
      if p.1 == k then some p.2 else m.getattr k := by
  cases h : p.1 == k <;> simp [OptMap.getattr, List.find?, h]

@[simp] theorem OptMap.hasattr_nil (k : String) :
    OptMap.hasattr [] k = false := rfl

theorem OptMap.hasattr_cons (p : String × PyVal) (m : OptMap) (k : String) :
    OptMap.hasattr (p :: m) k = (p.1 == k || m.hasattr k) := by
  simp [OptMap.hasattr]

theorem OptMap.getattr_isSome_iff_hasattr (m : OptMap) (k : String) :
    (m.getattr k).isSome = m.hasattr k := by
  induction m with
  | nil => rfl
  | cons p m ih =>
    rw [OptMap.getattr_cons, OptMap.hasattr_cons]
    cases h : p.1 == k <;> simp [h, ih]

theorem OptMap.getattr_append (m m' : OptMap) (k : String) :
    OptMap.getattr (m ++ m') k = ((m.getattr k).or (m'.getattr k)) := by
  induction m with
  | nil => simp
  | cons p m ih =>
    rw [List.cons_append, OptMap.getattr_cons, OptMap.getattr_cons]
    cases h : p.1 == k <;> simp [h, ih]

theorem OptMap.getattr_map_replace_self (m : OptMap) (k : String) (v : PyVal) :
    OptMap.getattr (m.map (fun p => if p.1 = k then (p.1, v) else p)) k =
      (m.getattr k).map (fun _ => v) := by
  induction m with
  | nil => rfl
  | cons p m ih =>
    by_cases h : p.1 = k
    · rw [List.map_cons, if_pos h, OptMap.getattr_cons, OptMap.getattr_cons]
      simp [h]
    · rw [List.map_cons, if_neg h, OptMap.getattr_cons, OptMap.getattr_cons]
      have hb : (p.1 == k) = false := by simp [h]
      rw [hb]
      simpa using ih

theorem OptMap.getattr_map_replace_other (m : OptMap) (k k' : String) (v : PyVal)
    (hk : k' ≠ k) :
    OptMap.getattr (m.map (fun p => if p.1 = k then (p.1, v) else p)) k' =
      m.getattr k' := by
  induction m with
  | nil => rfl
  | cons p m ih =>
    by_cases h : p.1 = k
    · have hne : (p.1 == k') = false := by
        simp [h]; exact fun hh => hk hh.symm
      rw [List.map_cons, if_pos h, OptMap.getattr_cons, OptMap.getattr_cons, hne]
      simp [ih]
    · rw [List.map_cons, if_neg h, OptMap.getattr_cons, OptMap.getattr_cons]
      cases h' : p.1 == k' <;> simp [ih]

theorem OptMap.getattr_update_one_self (m : OptMap) (k : String) (v : PyVal) :
    (m.update_one k v).getattr k = some v := by
  unfold OptMap.update_one
  cases h : m.hasattr k
  · have hnone : m.getattr k = none := by
      have := m.getattr_isSome_iff_hasattr k
      rw [h] at this
      exact Option.not_isSome_iff_eq_none.mp (by simp [this])
    simp [OptMap.getattr_append, hnone, OptMap.getattr_cons]
  · have hsome : (m.getattr k).isSome := by
      rw [OptMap.getattr_isSome_iff_hasattr, h]
    obtain ⟨w, hw⟩ := Option.isSome_iff_exists.mp hsome
    simp [OptMap.getattr_map_replace_self, hw]

theorem OptMap.getattr_update_one_other (m : OptMap) (k k' : String) (v : PyVal)
    (h : k' ≠ k) : (m.update_one k v).getattr k' = m.getattr k' := by
  unfold OptMap.update_one
  cases hm : m.hasattr k
  · have : (k == k') = false := by
      simp; exact fun hh => h hh.symm
    simp [OptMap.getattr_append, OptMap.getattr_cons, this]
  · simp [OptMap.getattr_map_replace_other m k k' v h]

theorem OptMap.hasattr_update_one (m : OptMap) (k k' : String) (v : PyVal) :
    (m.update_one k v).hasattr k' = (m.hasattr k' || k' == k) := by
  by_cases hk : k' = k
  · subst hk
    rw [← OptMap.getattr_isSome_iff_hasattr, OptMap.getattr_update_one_self]
    simp
  · rw [← OptMap.getattr_isSome_iff_hasattr,
      OptMap.getattr_update_one_other m k k' v hk,
      OptMap.getattr_isSome_iff_hasattr]
    simp [hk]

theorem OptMap.getattr_update_options_not_mem (m : OptMap)
    (fields : List (String × PyVal)) (k : String) (h : k ∉ fieldKeys fields) :
    (m.update_options fields).getattr k = m.getattr k := by
  induction fields generalizing m with
  | nil => rfl
  | cons p fs ih =>
    simp only [fieldKeys, List.map_cons, List.mem_cons] at h
    push_neg at h
    rw [OptMap.update_options, List.foldl_cons]
    have := ih (m.update_one p.1 p.2) (by simpa [fieldKeys] using h.2)
    rw [OptMap.update_options] at this
    rw [this, OptMap.getattr_update_one_other _ _ _ _ h.1]

theorem OptMap.hasattr_update_options (m : OptMap)
    (fields : List (String × PyVal)) (k : String) :
    (m.update_options fields).hasattr k =
      (m.hasattr k || decide (k ∈ fieldKeys fields)) := by
  induction fields generalizing m with
  | nil => simp [OptMap.update_options, fieldKeys]
  | cons p fs ih =>
    rw [OptMap.update_options, List.foldl_cons]
    have := ih (m.update_one p.1 p.2)
    rw [OptMap.update_options] at this
    rw [this, OptMap.hasattr_update_one]
    simp [fieldKeys]
    by_cases h1 : m.hasattr k <;> by_cases h2 : k = p.1 <;> simp [h1, h2]

theorem OptMap.getattr_update_options_mem (m : OptMap)
    (fields : List (String × PyVal)) (k : String) (v : PyVal)
    (hnd : (fieldKeys fields).Nodup) (hmem : (k, v) ∈ fields) :
    (m.update_options fields).getattr k = some v := by
  induction fields generalizing m with
  | nil => cases hmem
  | cons p fs ih =>
    simp only [fieldKeys, List.map_cons, List.nodup_cons] at hnd
    rw [OptMap.update_options, List.foldl_cons]
    rcases List.mem_cons.mp hmem with hhd | htl
    · subst hhd
      have hnotin : k ∉ fieldKeys fs := by simpa [fieldKeys] using hnd.1
      have := OptMap.getattr_update_options_not_mem (m.update_one k v) fs k hnotin
      rw [OptMap.update_options] at this
      rw [this, OptMap.getattr_update_one_self]
    · exact ih (m.update_one p.1 p.2) (by simpa [fieldKeys] using hnd.2) htl

/-- Python `set.union` on tracking sets, modelled on duplicate-free lists:
insert each new key that is not already present. -/
def keysUnion (s : List String) (ks : List String) : List String :=
  ks.foldl (fun acc k => if k ∈ acc then acc else acc ++ [k]) s

theorem mem_keysUnion (s ks : List String) (k : String) :
    k ∈ keysUnion s ks ↔ k ∈ s ∨ k ∈ ks := by
  induction ks generalizing s with
  | nil => simp [keysUnion]
  | cons a ks ih =>
    rw [keysUnion, List.foldl_cons]
    have := ih (if a ∈ s then s else s ++ [a])
    rw [keysUnion] at this
    rw [this]
    by_cases ha : a ∈ s
    · simp only [ha, if_true, List.mem_cons]
      constructor
      · rintro (h | h)
        · exact Or.inl h
        · exact Or.inr (Or.inr h)
      · rintro (h | h | h)
        · exact Or.inl h
        · exact Or.inl (h ▸ ha)
        · exact Or.inr h
    · simp only [ha, if_false, List.mem_append, List.mem_singleton, List.mem_cons]
      tauto

theorem nodup_keysUnion (s ks : List String) (h : s.Nodup) :
    (keysUnion s ks).Nodup := by
  induction ks generalizing s with
  | nil => exact h
  | cons a ks ih =>
    rw [keysUnion, List.foldl_cons]
    have step : (if a ∈ s then s else s ++ [a]).Nodup := by
      by_cases ha : a ∈ s
      · simpa [ha] using h
      · simp only [ha, if_false]
        exact List.Nodup.append h (List.nodup_singleton a)
          (by simpa [List.disjoint_singleton] using ha)
    have := ih (if a ∈ s then s else s ++ [a]) step
    rwa [keysUnion] at this

/-- State of a `BaseExperiment` instance
(`qiskit_experiments/framework/base_experiment.py`, `__init__` lines
125-153 plus the `__new__` argument capture, lines 155-186).  The Python
attributes `_set_experiment_options`, `_set_transpile_options`,
`_set_run_options` and `_set_analysis_options` (sets of user-overridden
field names) are the `..._keys` fields here, since in Lean a structure
field may not share its name with the setter method of the same class. -/
structure BaseExperiment where
  cls_name : String
  backend : Option Nat
  num_qubits : Int
  physical_qubits : List Int
  experiment_options : OptMap
  transpile_options : OptMap
  run_options : OptMap
  analysis_options : OptMap
  set_experiment_options_keys : List String
  set_transpile_options_keys : List String
  set_run_options_keys : List String
  set_analysis_options_keys : List String
  init_args : List PyVal
  init_kwargs : List (String × PyVal)
deriving DecidableEq

/-- Class-level data of a concrete `BaseExperiment` subclass: its name,
its four `_default_*_options` class methods, and an abstraction of how
its `__init__` derives the physical qubits and the backend from the
captured constructor arguments. -/
structure ExpClass where
  name : String
  default_experiment_options : OptMap
  default_transpile_options : OptMap
  default_run_options : OptMap
  default_analysis_options : OptMap
  qubits_of : List PyVal → List (String × PyVal) → List Int
  backend_of : List PyVal → List (String × PyVal) → Option Nat

/-- `BaseExperiment._default_transpile_options` (line 440). -/
def defaultTranspileOptions : OptMap := [("optimization_level", PyVal.int 0)]

/-- `BaseExperiment._default_run_options` (line 467):
`Options(meas_level=MeasLevel.CLASSIFIED)` with `MeasLevel.CLASSIFIED = 2`. -/
def defaultRunOptions : OptMap := [("meas_level", PyVal.int 2)]

/-- Construction of an experiment instance: `cls(*args, **kwargs)`.
`__new__` captures the args and kwargs in `__init_args__` and
`__init_kwargs__` (lines 155-186); `__init__` fills each option namespace
from the class defaults and starts all four tracking sets empty
(lines 143-153). -/
def mkExperiment (cls : ExpClass) (args : List PyVal)
    (kwargs : List (String × PyVal)) : BaseExperiment :=
  { cls_name := cls.name
    backend := cls.backend_of args kwargs
    num_qubits := (cls.qubits_of args kwargs).length
    physical_qubits := cls.qubits_of args kwargs
    experiment_options := cls.default_experiment_options
    transpile_options := cls.default_transpile_options
    run_options := cls.default_run_options
    analysis_options := cls.default_analysis_options
    set_experiment_options_keys := []
    set_transpile_options_keys := []
    set_run_options_keys := []
    set_analysis_options_keys := []
    init_args := args
    init_kwargs := kwargs }

/-- `BaseExperiment.set_experiment_options` (lines 417-432): loop over the
fields, raising `AttributeError` at the first one the experiment-options
bag does not declare; only when all pass are the options updated and the
field names added to the tracking set. -/
def BaseExperiment.set_experiment_options (e : BaseExperiment)
    (fields : List (String × PyVal)) : Except PyErr BaseExperiment :=
  match fields.find? (fun p => !(e.experiment_options.hasattr p.1)) with
  | some p => .error (.attributeError
      ("Options field " ++ p.1 ++ " is not valid for " ++ e.cls_name))
  | none => .ok { e with
      experiment_options := e.experiment_options.update_options fields
      set_experiment_options_keys :=
        keysUnion e.set_experiment_options_keys (fieldKeys fields) }

/-- `BaseExperiment.set_transpile_options` (lines 447-462): raise
`QiskitError` when `initial_layout` is among the fields, otherwise update
and track; no declaredness check is performed. -/
def BaseExperiment.set_transpile_options (e : BaseExperiment)
    (fields : List (String × PyVal)) : Except PyErr BaseExperiment :=
  if "initial_layout" ∈ fieldKeys fields then
    .error (.qiskitError
      "Initial layout cannot be specified as a transpile option as it is determined by the experiment physical qubits.")
  else .ok { e with
      transpile_options := e.transpile_options.update_options fields
      set_transpile_options_keys :=
        keysUnion e.set_transpile_options_keys (fieldKeys fields) }

/-- `BaseExperiment.set_run_options` (lines 474-481): update and track
unconditionally; no check of any kind is performed. -/
def BaseExperiment.set_run_options (e : BaseExperiment)
    (fields : List (String × PyVal)) : Except PyErr BaseExperiment :=
  .ok { e with
      run_options := e.run_options.update_options fields
      set_run_options_keys :=
        keysUnion e.set_run_options_keys (fieldKeys fields) }

/-- `BaseExperiment.set_analysis_options` (lines 498-505): update and
track unconditionally; no check of any kind is performed. -/
def BaseExperiment.set_analysis_options (e : BaseExperiment)
    (fields : List (String × PyVal)) : Except PyErr BaseExperiment :=
  .ok { e with
      analysis_options := e.analysis_options.update_options fields
      set_analysis_options_keys :=
        keysUnion e.set_analysis_options_keys (fieldKeys fields) }

/-- The `qubits` constructor argument: either an `Integral` count or a
sequence of physical-qubit indices. -/
inductive QubitsArg where
  | count : Int → QubitsArg
  | qubitList : List Int → QubitsArg

/-- Python `tuple(range(n))` for an int `n` (empty when `n ≤ 0`). -/
def pyRange (n : Int) : List Int :=
  (List.range n.toNat).map (fun i => (i : Int))

/-- Qubit handling of `BaseExperiment.__init__` (lines 133-141): an
integer count yields qubits `0..n-1`; a sequence is kept as given but
rejected with `QiskitError` when `len(qubits) != len(set(qubits))`. -/
def init_qubits : QubitsArg → Except PyErr (Int × List Int)
  | .count n => .ok (n, pyRange n)
  | .qubitList l =>
      if (l.length : Int) ≠ (l.dedup.length : Int) then
        .error (.qiskitError "Duplicate qubits in physical qubits list.")
      else .ok ((l.length : Int), l)

/-- Transpile options actually used by `BaseExperiment.run` (lines
307-310): a copy of the stored transpile options with `initial_layout`
overwritten by the experiment physical qubits. -/
def BaseExperiment.run_transpile_opts (e : BaseExperiment) : OptMap :=
  e.transpile_options.update_one "initial_layout"
    (PyVal.intList e.physical_qubits)

/-- Success test for a modelled Python call: no exception was raised. -/
def isOkB {α : Type} : Except PyErr α → Bool
  | .ok _ => true
  | .error _ => false

theorem length_dedup_eq_iff_nodup (l : List Int) :
    l.dedup.length = l.length ↔ l.Nodup := by
  constructor
  · intro h
    exact List.dedup_eq_self.mp ((l.dedup_sublist).eq_of_length h)
  · intro h
    rw [List.dedup_eq_self.mpr h]

/-- Field names of the `ExperimentConfig` dataclass in source order
(`base_experiment.py` lines 49-55). -/
def experimentConfigFields : List String :=
  ["cls", "args", "kwargs", "experiment_options", "transpile_options",
   "run_options", "version"]

/-- The `frozen=True` argument of the `dataclasses.dataclass` decorator on
`ExperimentConfig` (line 36). -/
def experimentConfigFrozen : Bool := true

/-- The `ExperimentConfig` dataclass (lines 36-55): experiment class (as
its name), constructor args and kwargs, the three option dictionaries and
the package version string. -/
structure ExperimentConfig where
  cls : String
  args : List PyVal
  kwargs : List (String × PyVal)
  experiment_options : OptMap
  transpile_options : OptMap
  run_options : OptMap
  version : String
deriving DecidableEq

/-- Attribute assignment on an `ExperimentConfig` instance: the
`__setattr__` generated by `dataclasses.dataclass(frozen=True)` raises
`FrozenInstanceError` for every field; only a non-frozen dataclass would
perform the assignment. -/
def ExperimentConfig.setattr (c : ExperimentConfig) (f : String) :
    Except PyErr ExperimentConfig :=
  if experimentConfigFrozen then
    .error (.attributeError ("FrozenInstanceError: cannot assign to field " ++ f))
  else .ok c

/-- The field list asserted by the claim: class, args, kwargs and the
three option dictionaries only. -/
def c7ClaimedFields : List String :=
  ["cls", "args", "kwargs", "experiment_options", "transpile_options",
   "run_options"]

/-- C10: constructing with an integer `n` yields `num_qubits = n` and
`physical_qubits = (0, ..., n-1)`; constructing with a sequence raises
`QiskitError` exactly when it contains duplicates and otherwise keeps the
sequence with `num_qubits` its length (`__init__` lines 133-141). -/
theorem C10_init_qubits_normalization (n : Int) (l : List Int) :
    init_qubits (.count n) = .ok (n, pyRange n) ∧
    (init_qubits (.qubitList l) =
        .error (.qiskitError "Duplicate qubits in physical qubits list.") ↔
      ¬ l.Nodup) ∧
    (init_qubits (.qubitList l) = .ok ((l.length : Int), l) ↔ l.Nodup) := by
  refine ⟨rfl, ?_, ?_⟩
  · unfold init_qubits
    by_cases h : l.Nodup
    · have : (l.length : Int) = (l.dedup.length : Int) := by
        exact_mod_cast ((length_dedup_eq_iff_nodup l).mpr h).symm
      simp [this, h]
    · have : (l.length : Int) ≠ (l.dedup.length : Int) := by
        intro hc
        exact h ((length_dedup_eq_iff_nodup l).mp (by exact_mod_cast hc.symm))
      simp [this, h]
  · unfold init_qubits
    by_cases h : l.Nodup
    · have : (l.length : Int) = (l.dedup.length : Int) := by
        exact_mod_cast ((length_dedup_eq_iff_nodup l).mpr h).symm
      simp [this, h]
    · have : (l.length : Int) ≠ (l.dedup.length : Int) := by
        intro hc
        exact h ((length_dedup_eq_iff_nodup l).mp (by exact_mod_cast hc.symm))
      simp [this, h]

/-- C9: `set_transpile_options` raises `QiskitError` exactly when
`initial_layout` is among the passed fields (the check precedes any
update, so a failing call changes nothing), and the transpile options
`run` actually uses always carry `initial_layout` equal to the list of
the experiment physical qubits, whatever is stored. -/
theorem C9_initial_layout_reserved (e : BaseExperiment)
    (fields : List (String × PyVal)) :
    ((∃ msg, e.set_transpile_options fields = .error (.qiskitError msg)) ↔
      "initial_layout" ∈ fieldKeys fields) ∧
    e.run_transpile_opts.getattr "initial_layout" =
      some (.intList e.physical_qubits) := by
  constructor
  · unfold BaseExperiment.set_transpile_options
    by_cases h : "initial_layout" ∈ fieldKeys fields <;> simp [h]
  · exact OptMap.getattr_update_one_self _ _ _

/-- Demonstration class used for concrete counterexamples and witnesses:
a subclass whose option defaults are the `BaseExperiment` class-method
defaults (no experiment options, `optimization_level=0` transpile
default, `meas_level=2` run default). -/
def demoClass : ExpClass :=
  { name := "DemoExperiment"
    default_experiment_options := []
    default_transpile_options := defaultTranspileOptions
    default_run_options := defaultRunOptions
    default_analysis_options := []
    qubits_of := fun _ _ => [0]
    backend_of := fun _ _ => none }

/-- A concrete experiment instance of the demonstration class. -/
def demoExp : BaseExperiment := mkExperiment demoClass [PyVal.int 1] []

/-- C3 counterexample: `shots` is not a declared run option of the
demonstration experiment (its run-option defaults declare only
`meas_level`), yet `set_run_options(shots=1024)` succeeds — the claim
that every namespace setter fails on undeclared fields is false. -/
theorem C3_counterexample :
    demoExp.run_options.hasattr "shots" = false ∧
    isOkB (demoExp.set_run_options [("shots", PyVal.int 1024)]) = true ∧
    (demoExp.set_run_options [("shots", PyVal.int 1024)]).toOption ≠
      some demoExp := by
  refine ⟨rfl, rfl, ?_⟩
  decide

/-- C3 amended: only `set_experiment_options` enforces declaredness — it
raises `AttributeError` exactly when some passed field is not declared in
the experiment-options bag, checking every field before updating anything
(so a failing call leaves the namespace unchanged); `set_run_options` and
`set_analysis_options` accept arbitrary fields, and
`set_transpile_options` accepts arbitrary fields except
`initial_layout`. -/
theorem C3_amended_only_experiment_options_checked (e : BaseExperiment)
    (fields : List (String × PyVal)) :
    isOkB (e.set_experiment_options fields) =
      fields.all (fun p => e.experiment_options.hasattr p.1) ∧
    isOkB (e.set_run_options fields) = true ∧
    isOkB (e.set_analysis_options fields) = true ∧
    isOkB (e.set_transpile_options fields) =
      !(decide ("initial_layout" ∈ fieldKeys fields)) := by
  refine ⟨?_, rfl, rfl, ?_⟩
  · unfold BaseExperiment.set_experiment_options
    cases hf : fields.find? (fun p => !(e.experiment_options.hasattr p.1)) with
    | none =>
      have := List.find?_eq_none.mp hf
      simp only [isOkB]
      symm
      rw [List.all_eq_true]
      intro p hp
      have := this p hp
      simpa using this
    | some p =>
      have := List.find?_some hf
      have hmem := List.mem_of_find?_eq_some hf
      simp only [isOkB]
      symm
      rw [List.all_eq_false]
      exact ⟨p, hmem, by simpa using this⟩
  · unfold BaseExperiment.set_transpile_options
    by_cases h : "initial_layout" ∈ fieldKeys fields <;> simp [h, isOkB]

/-- C7 counterexample: the `ExperimentConfig` dataclass does not carry
exactly the six claimed fields — it also has a `version` field
(line 55). -/
theorem C7_counterexample :
    experimentConfigFields ≠ c7ClaimedFields ∧
    "version" ∈ experimentConfigFields ∧ "version" ∉ c7ClaimedFields := by
  decide

/-- C7 amended: `ExperimentConfig` is frozen — assigning any field of any
instance raises `FrozenInstanceError` — and its fields are exactly the
claimed six (class, args, kwargs and the three option dictionaries) plus
a `version` string, with no analysis-options field. -/
theorem C7_amended_config_frozen_shape (c : ExperimentConfig) (f : String) :
    (∃ msg, c.setattr f = .error (.attributeError msg)) ∧
    experimentConfigFields = c7ClaimedFields ++ ["version"] ∧
    "analysis_options" ∉ experimentConfigFields := by
  refine ⟨⟨"FrozenInstanceError: cannot assign to field " ++ f, rfl⟩, by decide, by decide⟩

/-- Model of a backend as seen by `_run_jobs`: the
`configuration().max_experiments` attribute (absent modelled as `none`,
declared-but-zero as `some 0`, both falsy in Python) and the `run` call,
mapping a list of circuits (abstract ids) to a job handle. -/
structure BackendModel where
  max_experiments : Option Nat
  run : List Nat → Nat

/-- The Python chunking comprehension
`[circuits[i : i + m] for i in range(0, len(circuits), m)]` for a step
`m ≥ 1` (the only way `_run_jobs` reaches it, since `m` is truthy there);
the `m = 0` guard is a modelling artifact never hit by `run_jobs`. -/
def chunkList (m : Nat) (l : List Nat) : List (List Nat) :=
  if l = [] then []
  else if m = 0 then []
  else l.take m :: chunkList m (l.drop m)
termination_by l.length
decreasing_by
  rename_i h1 h2
  have : 0 < l.length := List.length_pos.mpr h1
  simp only [List.length_drop]
  omega

/-- `BaseExperiment._run_jobs` (lines 354-376): when the backend declares
a truthy `max_experiments` and more circuits are given, split into chunks
of `max_experiments` and submit one job per chunk, else submit one job
with everything; job handles are collected in submission order. -/
def run_jobs (b : BackendModel) (circuits : List Nat) : List Nat :=
  let job_circuits :=
    match b.max_experiments with
    | some m => if m ≠ 0 ∧ circuits.length > m then chunkList m circuits
                else [circuits]
    | none => [circuits]
  job_circuits.map b.run

@[simp] theorem chunkList_nil (m : Nat) : chunkList m [] = [] := by
  rw [chunkList]
  simp

theorem chunkList_flatten (m : Nat) (l : List Nat) (hm : m ≠ 0) :
    (chunkList m l).flatten = l := by
  have key : ∀ n l, l.length ≤ n → (chunkList m l).flatten = l := by
    intro n
    induction n with
    | zero =>
      intro l hl
      have : l = [] := List.length_eq_zero.mp (Nat.le_zero.mp hl)
      subst this
      simp
    | succ n ih =>
      intro l hl
      by_cases h1 : l = []
      · subst h1; simp
      · rw [chunkList, if_neg h1, if_neg hm, List.flatten_cons]
        have hlen : (l.drop m).length ≤ n := by
          have : 0 < l.length := List.length_pos.mpr h1
          simp only [List.length_drop]
          omega
        rw [ih (l.drop m) hlen, List.take_append_drop]
  exact key l.length l (le_refl _)

theorem chunkList_mem_bound (m : Nat) (l : List Nat) (hm : m ≠ 0) :
    ∀ c ∈ chunkList m l, c ≠ [] ∧ c.length ≤ m := by
  have key : ∀ n l, l.length ≤ n → ∀ c ∈ chunkList m l, c ≠ [] ∧ c.length ≤ m := by
    intro n
    induction n with
    | zero =>
      intro l hl c hc
      have : l = [] := List.length_eq_zero.mp (Nat.le_zero.mp hl)
      subst this
      simp at hc
    | succ n ih =>
      intro l hl c hc
      by_cases h1 : l = []
      · subst h1; simp at hc
      · rw [chunkList, if_neg h1, if_neg hm] at hc
        rcases List.mem_cons.mp hc with h | h
        · subst h
          constructor
          · intro hcon
            have hpos : 0 < l.length := List.length_pos.mpr h1
            have := congrArg List.length hcon
            simp only [List.length_take, List.length_nil] at this
            omega
          · rw [List.length_take]
            exact Nat.min_le_left _ _
        · have hlen : (l.drop m).length ≤ n := by
            have : 0 < l.length := List.length_pos.mpr h1
            simp only [List.length_drop]
            omega
          exact ih (l.drop m) hlen c h
  exact key l.length l (le_refl _)

/-- C2: for a non-empty circuit list, when the backend declares a truthy
`max_experiments = m` and the list is longer than `m`, `_run_jobs`
submits one job per chunk, the chunks concatenating back to the input in
order with every chunk non-empty of size at most `m`, and the job handles
are returned in submission order; in every other case it submits exactly
one job carrying all circuits. -/
theorem C2_run_jobs_batching (b : BackendModel) (circuits : List Nat) (m : Nat)
    (_hne : circuits ≠ []) :
    (b.max_experiments = some m → m ≠ 0 → circuits.length > m →
      run_jobs b circuits = (chunkList m circuits).map b.run ∧
      (chunkList m circuits).flatten = circuits ∧
      ∀ c ∈ chunkList m circuits, c ≠ [] ∧ c.length ≤ m) ∧
    ((b.max_experiments = none ∨ b.max_experiments = some 0 ∨
        (b.max_experiments = some m ∧ circuits.length ≤ m)) →
      run_jobs b circuits = [b.run circuits]) := by
  constructor
  · intro hb hm hlen
    refine ⟨?_, chunkList_flatten m circuits hm, chunkList_mem_bound m circuits hm⟩
    simp [run_jobs, hb, hm, hlen]
  · intro hcase
    rcases hcase with h | h | ⟨h, hle⟩
    · simp [run_jobs, h]
    · simp [run_jobs, h]
    · have hno : ¬ (m ≠ 0 ∧ circuits.length > m) := by
        intro hcon
        omega
      simp [run_jobs, h, hno]

/-- C2 witness: a backend with `max_experiments = 2` splits three
circuits into chunks `[1, 2]`, `[3]`, and a backend without the
attribute submits a single job. -/
theorem C2_run_jobs_batching_witness :
    run_jobs ⟨some 2, List.length⟩ [1, 2, 3] =
      (chunkList 2 [1, 2, 3]).map List.length ∧
    (chunkList 2 [1, 2, 3]).flatten = [1, 2, 3] ∧
    run_jobs ⟨none, List.length⟩ [1, 2, 3] = [3] := by
  have h := C2_run_jobs_batching ⟨some 2, List.length⟩ [1, 2, 3] 2 (by decide)
  have h2 := C2_run_jobs_batching ⟨none, List.length⟩ [1, 2, 3] 2 (by decide)
  refine ⟨(h.1 rfl (by decide) (by decide)).1,
    (h.1 rfl (by decide) (by decide)).2.1, ?_⟩
  rw [h2.2 (Or.inl rfl)]
  rfl

/-- The package `__version__` string; its concrete value never matters to
any claim, only that `config` leaves the dataclass default in place. -/
def qe_version : String := "0.0.0"

/-- `BaseExperiment.config` (lines 233-253): capture the class, the
stored constructor args and kwargs, and — for the experiment, transpile
and run namespaces — only the user-set fields, each with its current
value.  Python reads the value with `getattr`; the `getD PyVal.pyNone`
fallback is unreachable because every tracked key is present in its
options bag (proved as an invariant below). -/
def BaseExperiment.config (e : BaseExperiment) : ExperimentConfig :=
  { cls := e.cls_name
    args := e.init_args
    kwargs := e.init_kwargs
    experiment_options := e.set_experiment_options_keys.map
      (fun k => (k, (e.experiment_options.getattr k).getD PyVal.pyNone))
    transpile_options := e.set_transpile_options_keys.map
      (fun k => (k, (e.transpile_options.getattr k).getD PyVal.pyNone))
    run_options := e.set_run_options_keys.map
      (fun k => (k, (e.run_options.getattr k).getD PyVal.pyNone))
    version := qe_version }

/-- Argument to `BaseExperiment.from_config`: either an
`ExperimentConfig` instance or a plain Python dict. -/
inductive ConfigArg where
  | config (c : ExperimentConfig)
  | dictArg (d : List (String × PyVal))

/-- The exception raised by line 259, `config = ExperimentConfig(**dict)`:
the splat is applied to the builtin `dict` type itself instead of the
`config` argument, so Python raises `TypeError` before anything else can
happen, for every dict passed. -/
def dictSplatError : PyErr :=
  .typeError "argument after ** must be a mapping, not type"

/-- `BaseExperiment.from_config` (lines 255-267): reconstruct with
`cls(*config.args, **config.kwargs)` and replay the three stored option
dictionaries through the setters, skipping empty (falsy) ones.  The dict
branch executes `ExperimentConfig(**dict)` and therefore raises. -/
def from_config (cls : ExpClass) : ConfigArg → Except PyErr BaseExperiment
  | .dictArg _ => .error dictSplatError
  | .config c =>
    match (if c.experiment_options.isEmpty
           then .ok (mkExperiment cls c.args c.kwargs)
           else (mkExperiment cls c.args c.kwargs).set_experiment_options
             c.experiment_options) with
    | .error err => .error err
    | .ok r1 =>
      match (if c.transpile_options.isEmpty then .ok r1
             else r1.set_transpile_options c.transpile_options) with
      | .error err => .error err
      | .ok r2 =>
        match (if c.run_options.isEmpty then .ok r2
               else r2.set_run_options c.run_options) with
        | .error err => .error err
        | .ok r3 => .ok r3

/-- One option-setting call against some namespace. -/
inductive SetOp where
  | experiment (fields : List (String × PyVal))
  | transpile (fields : List (String × PyVal))
  | run (fields : List (String × PyVal))
  | analysis (fields : List (String × PyVal))

/-- The four option namespaces. -/
inductive NsTag where
  | experiment | transpile | run | analysis
deriving DecidableEq

/-- Namespace a call addresses. -/
def SetOp.tag : SetOp → NsTag
  | .experiment _ => .experiment
  | .transpile _ => .transpile
  | .run _ => .run
  | .analysis _ => .analysis

/-- Fields a call passes. -/
def SetOp.fields : SetOp → List (String × PyVal)
  | .experiment fs => fs
  | .transpile fs => fs
  | .run fs => fs
  | .analysis fs => fs

/-- Execute one option-setting call; a raised exception propagates to the
caller and leaves the experiment as it was. -/
def applySetOp (e : BaseExperiment) : SetOp → BaseExperiment
  | .experiment fs => match e.set_experiment_options fs with
      | .ok e' => e'
      | .error _ => e
  | .transpile fs => match e.set_transpile_options fs with
      | .ok e' => e'
      | .error _ => e
  | .run fs => match e.set_run_options fs with
      | .ok e' => e'
      | .error _ => e
  | .analysis fs => match e.set_analysis_options fs with
      | .ok e' => e'
      | .error _ => e

/-- Execute a sequence of option-setting calls. -/
def applySetOps (e : BaseExperiment) (ops : List SetOp) : BaseExperiment :=
  ops.foldl applySetOp e

/-- Did this call succeed on this experiment state? -/
def succeedsOp (e : BaseExperiment) : SetOp → Bool
  | .experiment fs => isOkB (e.set_experiment_options fs)
  | .transpile fs => isOkB (e.set_transpile_options fs)
  | .run fs => isOkB (e.set_run_options fs)
  | .analysis fs => isOkB (e.set_analysis_options fs)

/-- The claim-side collector: the field names passed to the successful
calls addressing namespace `tag`, across a call sequence starting from
`e`. -/
def succKeys (tag : NsTag) : BaseExperiment → List SetOp → List String
  | _, [] => []
  | e, op :: ops =>
      (if op.tag = tag ∧ succeedsOp e op then fieldKeys op.fields else [])
        ++ succKeys tag (applySetOp e op) ops

/-- Tracking set of a namespace. -/
def BaseExperiment.trackedKeys (e : BaseExperiment) : NsTag → List String
  | .experiment => e.set_experiment_options_keys
  | .transpile => e.set_transpile_options_keys
  | .run => e.set_run_options_keys
  | .analysis => e.set_analysis_options_keys

/-- Options bag of a namespace. -/
def BaseExperiment.nsOptions (e : BaseExperiment) : NsTag → OptMap
  | .experiment => e.experiment_options
  | .transpile => e.transpile_options
  | .run => e.run_options
  | .analysis => e.analysis_options

/-- Default options bag of a namespace for a class. -/
def ExpClass.nsDefault (cls : ExpClass) : NsTag → OptMap
  | .experiment => cls.default_experiment_options
  | .transpile => cls.default_transpile_options
  | .run => cls.default_run_options
  | .analysis => cls.default_analysis_options

/-- Invariant of every experiment state reachable from construction by
option-setting calls. -/
structure OptionsInvariant (cls : ExpClass) (e : BaseExperiment) : Prop where
  nodup : ∀ t, (e.trackedKeys t).Nodup
  present : ∀ t, ∀ k ∈ e.trackedKeys t, (e.nsOptions t).hasattr k = true
  untracked_default : ∀ t, ∀ k, k ∉ e.trackedKeys t →
    (e.nsOptions t).getattr k = (cls.nsDefault t).getattr k
  exp_keys_fixed : ∀ k, e.experiment_options.hasattr k =
    cls.default_experiment_options.hasattr k
  no_initial_layout : "initial_layout" ∉ e.set_transpile_options_keys

theorem OptMap.getattr_map_mk (l : List String) (f : String → PyVal) (k : String) :
    OptMap.getattr (l.map (fun k' => (k', f k'))) k =
      if k ∈ l then some (f k) else none := by
  induction l with
  | nil => simp
  | cons a l ih =>
    rw [List.map_cons, OptMap.getattr_cons]
    by_cases h : a = k
    · subst h
      simp
    · have : (a == k) = false := by simp [h]
      rw [this]
      simp only [Bool.false_eq_true, if_false, ih, List.mem_cons]
      have : ¬ k = a := fun hh => h hh.symm
      simp [this]

theorem fieldKeys_map_mk (l : List String) (f : String → PyVal) :
    fieldKeys (l.map (fun k' => (k', f k'))) = l := by
  induction l with
  | nil => rfl
  | cons a l ih => simp [fieldKeys] at ih ⊢; exact ih

theorem set_experiment_options_ok_inv {e : BaseExperiment}
    {fs : List (String × PyVal)} {e' : BaseExperiment}
    (h : e.set_experiment_options fs = .ok e') :
    (∀ k ∈ fieldKeys fs, e.experiment_options.hasattr k = true) ∧
    e' = { e with
      experiment_options := e.experiment_options.update_options fs
      set_experiment_options_keys :=
        keysUnion e.set_experiment_options_keys (fieldKeys fs) } := by
  unfold BaseExperiment.set_experiment_options at h
  cases hf : fs.find? (fun p => !(e.experiment_options.hasattr p.1)) with
  | some p => rw [hf] at h; cases h
  | none =>
    rw [hf] at h
    injection h with h
    subst h
    refine ⟨?_, rfl⟩
    intro k hk
    obtain ⟨p, hp, rfl⟩ := List.mem_map.mp hk
    have := List.find?_eq_none.mp hf p hp
    simpa using this

theorem set_transpile_options_ok_inv {e : BaseExperiment}
    {fs : List (String × PyVal)} {e' : BaseExperiment}
    (h : e.set_transpile_options fs = .ok e') :
    "initial_layout" ∉ fieldKeys fs ∧
    e' = { e with
      transpile_options := e.transpile_options.update_options fs
      set_transpile_options_keys :=
        keysUnion e.set_transpile_options_keys (fieldKeys fs) } := by
  unfold BaseExperiment.set_transpile_options at h
  by_cases hmem : "initial_layout" ∈ fieldKeys fs
  · rw [if_pos hmem] at h; cases h
  · rw [if_neg hmem] at h
    injection h with h
    exact ⟨hmem, h.symm⟩

theorem set_run_options_ok_inv {e : BaseExperiment}
    {fs : List (String × PyVal)} {e' : BaseExperiment}
    (h : e.set_run_options fs = .ok e') :
    e' = { e with
      run_options := e.run_options.update_options fs
      set_run_options_keys :=
        keysUnion e.set_run_options_keys (fieldKeys fs) } := by
  unfold BaseExperiment.set_run_options at h
  injection h with h
  exact h.symm

theorem set_analysis_options_ok_inv {e : BaseExperiment}
    {fs : List (String × PyVal)} {e' : BaseExperiment}
    (h : e.set_analysis_options fs = .ok e') :
    e' = { e with
      analysis_options := e.analysis_options.update_options fs
      set_analysis_options_keys :=
        keysUnion e.set_analysis_options_keys (fieldKeys fs) } := by
  unfold BaseExperiment.set_analysis_options at h
  injection h with h
  exact h.symm

theorem optionsInvariant_mk (cls : ExpClass) (args : List PyVal)
    (kwargs : List (String × PyVal)) :
    OptionsInvariant cls (mkExperiment cls args kwargs) := by
  constructor
  · intro t; cases t <;> exact List.nodup_nil
  · intro t k hk; cases t <;> cases hk
  · intro t k _
    cases t <;> rfl
  · intro k; rfl
  · intro hk; cases hk

theorem optionsInvariant_step (cls : ExpClass) (e : BaseExperiment)
    (op : SetOp) (inv : OptionsInvariant cls e) :
    OptionsInvariant cls (applySetOp e op) := by
  cases op with
  | experiment fs =>
    cases hs : e.set_experiment_options fs with
    | error err =>
      have heq : applySetOp e (.experiment fs) = e := by
        simp only [applySetOp]; rw [hs]
      rw [heq]; exact inv
    | ok e' =>
      have heq : applySetOp e (.experiment fs) = e' := by
        simp only [applySetOp]; rw [hs]
      rw [heq]
      obtain ⟨hall, he'⟩ := set_experiment_options_ok_inv hs
      subst he'
      constructor
      · intro t; cases t
        · exact nodup_keysUnion _ _ (inv.nodup .experiment)
        · exact inv.nodup .transpile
        · exact inv.nodup .run
        · exact inv.nodup .analysis
      · intro t k hk; cases t
        · show (e.experiment_options.update_options fs).hasattr k = true
          rw [OptMap.hasattr_update_options]
          rcases (mem_keysUnion _ _ k).mp hk with h | h
          · have h2 : e.experiment_options.hasattr k = true := inv.present .experiment k h
            rw [h2]; rfl
          · simp [h]
        · exact inv.present .transpile k hk
        · exact inv.present .run k hk
        · exact inv.present .analysis k hk
      · intro t k hnk; cases t
        · show (e.experiment_options.update_options fs).getattr k =
            (cls.nsDefault .experiment).getattr k
          have hk2 := (mem_keysUnion _ _ k).not.mp hnk
          push_neg at hk2
          rw [OptMap.getattr_update_options_not_mem _ _ _ hk2.2]
          exact inv.untracked_default .experiment k hk2.1
        · exact inv.untracked_default .transpile k hnk
        · exact inv.untracked_default .run k hnk
        · exact inv.untracked_default .analysis k hnk
      · intro k
        show (e.experiment_options.update_options fs).hasattr k =
          cls.default_experiment_options.hasattr k
        rw [OptMap.hasattr_update_options]
        by_cases hmem : k ∈ fieldKeys fs
        · have h1 := hall k hmem
          have h2 := inv.exp_keys_fixed k
          rw [h1] at h2
          rw [h1, ← h2]; rfl
        · simp only [hmem, decide_eq_true_eq, decide_eq_false_iff_not,
            not_false_iff]
          rw [← inv.exp_keys_fixed k]
          simp [hmem]
      · exact inv.no_initial_layout
  | transpile fs =>
    cases hs : e.set_transpile_options fs with
    | error err =>
      have heq : applySetOp e (.transpile fs) = e := by
        simp only [applySetOp]; rw [hs]
      rw [heq]; exact inv
    | ok e' =>
      have heq : applySetOp e (.transpile fs) = e' := by
        simp only [applySetOp]; rw [hs]
      rw [heq]
      obtain ⟨hil, he'⟩ := set_transpile_options_ok_inv hs
      subst he'
      constructor
      · intro t; cases t
        · exact inv.nodup .experiment
        · exact nodup_keysUnion _ _ (inv.nodup .transpile)
        · exact inv.nodup .run
        · exact inv.nodup .analysis
      · intro t k hk; cases t
        · exact inv.present .experiment k hk
        · show (e.transpile_options.update_options fs).hasattr k = true
          rw [OptMap.hasattr_update_options]
          rcases (mem_keysUnion _ _ k).mp hk with h | h
          · have h2 : e.transpile_options.hasattr k = true := inv.present .transpile k h
            rw [h2]; rfl
          · simp [h]
        · exact inv.present .run k hk
        · exact inv.present .analysis k hk
      · intro t k hnk; cases t
        · exact inv.untracked_default .experiment k hnk
        · show (e.transpile_options.update_options fs).getattr k =
            (cls.nsDefault .transpile).getattr k
          have hk2 := (mem_keysUnion _ _ k).not.mp hnk
          push_neg at hk2
          rw [OptMap.getattr_update_options_not_mem _ _ _ hk2.2]
          exact inv.untracked_default .transpile k hk2.1
        · exact inv.untracked_default .run k hnk
        · exact inv.untracked_default .analysis k hnk
      · intro k; exact inv.exp_keys_fixed k
      · intro hk
        rcases (mem_keysUnion _ _ _).mp hk with h | h
        · exact inv.no_initial_layout h
        · exact hil h
  | run fs =>
    cases hs : e.set_run_options fs with
    | error err => simp [BaseExperiment.set_run_options] at hs
    | ok e' =>
      have heq : applySetOp e (.run fs) = e' := by
        simp only [applySetOp]; rw [hs]
      rw [heq]
      have he' := set_run_options_ok_inv hs
      subst he'
      constructor
      · intro t; cases t
        · exact inv.nodup .experiment
        · exact inv.nodup .transpile
        · exact nodup_keysUnion _ _ (inv.nodup .run)
        · exact inv.nodup .analysis
      · intro t k hk; cases t
        · exact inv.present .experiment k hk
        · exact inv.present .transpile k hk
        · show (e.run_options.update_options fs).hasattr k = true
          rw [OptMap.hasattr_update_options]
          rcases (mem_keysUnion _ _ k).mp hk with h | h
          · have h2 : e.run_options.hasattr k = true := inv.present .run k h
            rw [h2]; rfl
          · simp [h]
        · exact inv.present .analysis k hk
      · intro t k hnk; cases t
        · exact inv.untracked_default .experiment k hnk
        · exact inv.untracked_default .transpile k hnk
        · show (e.run_options.update_options fs).getattr k =
            (cls.nsDefault .run).getattr k
          have hk2 := (mem_keysUnion _ _ k).not.mp hnk
          push_neg at hk2
          rw [OptMap.getattr_update_options_not_mem _ _ _ hk2.2]
          exact inv.untracked_default .run k hk2.1
        · exact inv.untracked_default .analysis k hnk
      · intro k; exact inv.exp_keys_fixed k
      · exact inv.no_initial_layout
  | analysis fs =>
    cases hs : e.set_analysis_options fs with
    | error err => simp [BaseExperiment.set_analysis_options] at hs
    | ok e' =>
      have heq : applySetOp e (.analysis fs) = e' := by
        simp only [applySetOp]; rw [hs]
      rw [heq]
      have he' := set_analysis_options_ok_inv hs
      subst he'
      constructor
      · intro t; cases t
        · exact inv.nodup .experiment
        · exact inv.nodup .transpile
        · exact inv.nodup .run
        · exact nodup_keysUnion _ _ (inv.nodup .analysis)
      · intro t k hk; cases t
        · exact inv.present .experiment k hk
        · exact inv.present .transpile k hk
        · exact inv.present .run k hk
        · show (e.analysis_options.update_options fs).hasattr k = true
          rw [OptMap.hasattr_update_options]
          rcases (mem_keysUnion _ _ k).mp hk with h | h
          · have h2 : e.analysis_options.hasattr k = true := inv.present .analysis k h
            rw [h2]; rfl
          · simp [h]
      · intro t k hnk; cases t
        · exact inv.untracked_default .experiment k hnk
        · exact inv.untracked_default .transpile k hnk
        · exact inv.untracked_default .run k hnk
        · show (e.analysis_options.update_options fs).getattr k =
            (cls.nsDefault .analysis).getattr k
          have hk2 := (mem_keysUnion _ _ k).not.mp hnk
          push_neg at hk2
          rw [OptMap.getattr_update_options_not_mem _ _ _ hk2.2]
          exact inv.untracked_default .analysis k hk2.1
      · intro k; exact inv.exp_keys_fixed k
      · exact inv.no_initial_layout

theorem optionsInvariant_applySetOps (cls : ExpClass) (e : BaseExperiment)
    (ops : List SetOp) (inv : OptionsInvariant cls e) :
    OptionsInvariant cls (applySetOps e ops) := by
  induction ops generalizing e with
  | nil => exact inv
  | cons op ops ih =>
    exact ih (applySetOp e op) (optionsInvariant_step cls e op inv)

theorem trackedKeys_applySetOp (e : BaseExperiment) (op : SetOp) (t : NsTag)
    (k : String) :
    k ∈ (applySetOp e op).trackedKeys t ↔
      k ∈ e.trackedKeys t ∨
        (op.tag = t ∧ succeedsOp e op = true ∧ k ∈ fieldKeys op.fields) := by
  cases op with
  | experiment fs =>
    cases hs : e.set_experiment_options fs with
    | error err =>
      have heq : applySetOp e (.experiment fs) = e := by
        simp only [applySetOp]; rw [hs]
      have hsucc : succeedsOp e (.experiment fs) = false := by
        simp only [succeedsOp]; rw [hs]; rfl
      rw [heq, hsucc]
      simp
    | ok e' =>
      have heq : applySetOp e (.experiment fs) = e' := by
        simp only [applySetOp]; rw [hs]
      have hsucc : succeedsOp e (.experiment fs) = true := by
        simp only [succeedsOp]; rw [hs]; rfl
      obtain ⟨_, he'⟩ := set_experiment_options_ok_inv hs
      subst he'
      rw [heq, hsucc]
      cases t with
      | experiment =>
        show k ∈ keysUnion e.set_experiment_options_keys (fieldKeys fs) ↔ _
        rw [mem_keysUnion]
        simp [SetOp.tag, SetOp.fields, BaseExperiment.trackedKeys]
      | transpile => simp [BaseExperiment.trackedKeys, SetOp.tag]
      | run => simp [BaseExperiment.trackedKeys, SetOp.tag]
      | analysis => simp [BaseExperiment.trackedKeys, SetOp.tag]
  | transpile fs =>
    cases hs : e.set_transpile_options fs with
    | error err =>
      have heq : applySetOp e (.transpile fs) = e := by
        simp only [applySetOp]; rw [hs]
      have hsucc : succeedsOp e (.transpile fs) = false := by
        simp only [succeedsOp]; rw [hs]; rfl
      rw [heq, hsucc]
      simp
    | ok e' =>
      have heq : applySetOp e (.transpile fs) = e' := by
        simp only [applySetOp]; rw [hs]
      have hsucc : succeedsOp e (.transpile fs) = true := by
        simp only [succeedsOp]; rw [hs]; rfl
      obtain ⟨_, he'⟩ := set_transpile_options_ok_inv hs
      subst he'
      rw [heq, hsucc]
      cases t with
      | transpile =>
        show k ∈ keysUnion e.set_transpile_options_keys (fieldKeys fs) ↔ _
        rw [mem_keysUnion]
        simp [SetOp.tag, SetOp.fields, BaseExperiment.trackedKeys]
      | experiment => simp [BaseExperiment.trackedKeys, SetOp.tag]
      | run => simp [BaseExperiment.trackedKeys, SetOp.tag]
      | analysis => simp [BaseExperiment.trackedKeys, SetOp.tag]
  | run fs =>
    cases hs : e.set_run_options fs with
    | error err => simp [BaseExperiment.set_run_options] at hs
    | ok e' =>
      have heq : applySetOp e (.run fs) = e' := by
        simp only [applySetOp]; rw [hs]
      have hsucc : succeedsOp e (.run fs) = true := by
        simp only [succeedsOp]; rw [hs]; rfl
      have he' := set_run_options_ok_inv hs
      subst he'
      rw [heq, hsucc]
      cases t with
      | run =>
        show k ∈ keysUnion e.set_run_options_keys (fieldKeys fs) ↔ _
        rw [mem_keysUnion]
        simp [SetOp.tag, SetOp.fields, BaseExperiment.trackedKeys]
      | experiment => simp [BaseExperiment.trackedKeys, SetOp.tag]
      | transpile => simp [BaseExperiment.trackedKeys, SetOp.tag]
      | analysis => simp [BaseExperiment.trackedKeys, SetOp.tag]
  | analysis fs =>
    cases hs : e.set_analysis_options fs with
    | error err => simp [BaseExperiment.set_analysis_options] at hs
    | ok e' =>
      have heq : applySetOp e (.analysis fs) = e' := by
        simp only [applySetOp]; rw [hs]
      have hsucc : succeedsOp e (.analysis fs) = true := by
        simp only [succeedsOp]; rw [hs]; rfl
      have he' := set_analysis_options_ok_inv hs
      subst he'
      rw [heq, hsucc]
      cases t with
      | analysis =>
        show k ∈ keysUnion e.set_analysis_options_keys (fieldKeys fs) ↔ _
        rw [mem_keysUnion]
        simp [SetOp.tag, SetOp.fields, BaseExperiment.trackedKeys]
      | experiment => simp [BaseExperiment.trackedKeys, SetOp.tag]
      | transpile => simp [BaseExperiment.trackedKeys, SetOp.tag]
      | run => simp [BaseExperiment.trackedKeys, SetOp.tag]

theorem trackedKeys_applySetOps (e : BaseExperiment) (ops : List SetOp)
    (t : NsTag) (k : String) :
    k ∈ (applySetOps e ops).trackedKeys t ↔
      k ∈ e.trackedKeys t ∨ k ∈ succKeys t e ops := by
  induction ops generalizing e with
  | nil => simp [applySetOps, succKeys]
  | cons op ops ih =>
    show k ∈ (applySetOps (applySetOp e op) ops).trackedKeys t ↔ _
    rw [ih (applySetOp e op), trackedKeys_applySetOp]
    rw [succKeys]
    rw [List.mem_append]
    by_cases hc : op.tag = t ∧ succeedsOp e op = true
    · rw [if_pos hc]
      tauto
    · rw [if_neg hc]
      simp only [List.not_mem_nil, false_or]
      constructor
      · rintro ((h | h) | h)
        · exact Or.inl h
        · exact absurd ⟨h.1, h.2.1⟩ hc
        · exact Or.inr h
      · rintro (h | h)
        · exact Or.inl (Or.inl h)
        · exact Or.inr h

/-- C5: starting from construction (all four tracking sets empty), after
any sequence of option-setting calls the recorded user-set field names of
each namespace are exactly those passed to the successful setter calls of
that namespace, and the config dictionaries of the experiment, transpile
and run namespaces hold exactly the recorded fields, each at its current
option value — an untracked (default-valued) field never appears. -/
theorem C5_user_set_tracking_and_config (cls : ExpClass) (args : List PyVal)
    (kwargs : List (String × PyVal)) (ops : List SetOp) (t : NsTag) (k : String) :
    (k ∈ (applySetOps (mkExperiment cls args kwargs) ops).trackedKeys t ↔
      k ∈ succKeys t (mkExperiment cls args kwargs) ops) ∧
    (fieldKeys (applySetOps (mkExperiment cls args kwargs) ops).config.experiment_options =
      (applySetOps (mkExperiment cls args kwargs) ops).set_experiment_options_keys) ∧
    (fieldKeys (applySetOps (mkExperiment cls args kwargs) ops).config.transpile_options =
      (applySetOps (mkExperiment cls args kwargs) ops).set_transpile_options_keys) ∧
    (fieldKeys (applySetOps (mkExperiment cls args kwargs) ops).config.run_options =
      (applySetOps (mkExperiment cls args kwargs) ops).set_run_options_keys) ∧
    ((applySetOps (mkExperiment cls args kwargs) ops).config.experiment_options.getattr k =
      if k ∈ (applySetOps (mkExperiment cls args kwargs) ops).set_experiment_options_keys
      then (applySetOps (mkExperiment cls args kwargs) ops).experiment_options.getattr k
      else none) ∧
    ((applySetOps (mkExperiment cls args kwargs) ops).config.transpile_options.getattr k =
      if k ∈ (applySetOps (mkExperiment cls args kwargs) ops).set_transpile_options_keys
      then (applySetOps (mkExperiment cls args kwargs) ops).transpile_options.getattr k
      else none) ∧
    ((applySetOps (mkExperiment cls args kwargs) ops).config.run_options.getattr k =
      if k ∈ (applySetOps (mkExperiment cls args kwargs) ops).set_run_options_keys
      then (applySetOps (mkExperiment cls args kwargs) ops).run_options.getattr k
      else none) := by
  have inv := optionsInvariant_applySetOps cls (mkExperiment cls args kwargs) ops
    (optionsInvariant_mk cls args kwargs)
  refine ⟨?_, ?_, ?_, ?_, ?_, ?_, ?_⟩
  · rw [trackedKeys_applySetOps]
    have hempty : k ∉ (mkExperiment cls args kwargs).trackedKeys t := by
      cases t <;> simp [BaseExperiment.trackedKeys, mkExperiment]
    simp [hempty]
  · exact fieldKeys_map_mk _ _
  · exact fieldKeys_map_mk _ _
  · exact fieldKeys_map_mk _ _
  · show OptMap.getattr (List.map _ _) k = _
    rw [OptMap.getattr_map_mk]
    by_cases hk : k ∈ (applySetOps (mkExperiment cls args kwargs) ops).set_experiment_options_keys
    · rw [if_pos hk, if_pos hk]
      have hpres : ((applySetOps (mkExperiment cls args kwargs) ops).experiment_options).hasattr k = true :=
        inv.present .experiment k hk
      rw [← OptMap.getattr_isSome_iff_hasattr] at hpres
      obtain ⟨v, hv⟩ := Option.isSome_iff_exists.mp hpres
      rw [hv]
      rfl
    · rw [if_neg hk, if_neg hk]
  · show OptMap.getattr (List.map _ _) k = _
    rw [OptMap.getattr_map_mk]
    by_cases hk : k ∈ (applySetOps (mkExperiment cls args kwargs) ops).set_transpile_options_keys
    · rw [if_pos hk, if_pos hk]
      have hpres : ((applySetOps (mkExperiment cls args kwargs) ops).transpile_options).hasattr k = true :=
        inv.present .transpile k hk
      rw [← OptMap.getattr_isSome_iff_hasattr] at hpres
      obtain ⟨v, hv⟩ := Option.isSome_iff_exists.mp hpres
      rw [hv]
      rfl
    · rw [if_neg hk, if_neg hk]
  · show OptMap.getattr (List.map _ _) k = _
    rw [OptMap.getattr_map_mk]
    by_cases hk : k ∈ (applySetOps (mkExperiment cls args kwargs) ops).set_run_options_keys
    · rw [if_pos hk, if_pos hk]
      have hpres : ((applySetOps (mkExperiment cls args kwargs) ops).run_options).hasattr k = true :=
        inv.present .run k hk
      rw [← OptMap.getattr_isSome_iff_hasattr] at hpres
      obtain ⟨v, hv⟩ := Option.isSome_iff_exists.mp hpres
      rw [hv]
      rfl
    · rw [if_neg hk, if_neg hk]

theorem applySetOp_frame (e : BaseExperiment) (op : SetOp) :
    (applySetOp e op).cls_name = e.cls_name ∧
    (applySetOp e op).init_args = e.init_args ∧
    (applySetOp e op).init_kwargs = e.init_kwargs := by
  cases op with
  | experiment fs =>
    cases hs : e.set_experiment_options fs with
    | error err =>
      have heq : applySetOp e (.experiment fs) = e := by
        simp only [applySetOp]; rw [hs]
      rw [heq]; exact ⟨rfl, rfl, rfl⟩
    | ok e' =>
      have heq : applySetOp e (.experiment fs) = e' := by
        simp only [applySetOp]; rw [hs]
      obtain ⟨_, he'⟩ := set_experiment_options_ok_inv hs
      subst he'
      rw [heq]; exact ⟨rfl, rfl, rfl⟩
  | transpile fs =>
    cases hs : e.set_transpile_options fs with
    | error err =>
      have heq : applySetOp e (.transpile fs) = e := by
        simp only [applySetOp]; rw [hs]
      rw [heq]; exact ⟨rfl, rfl, rfl⟩
    | ok e' =>
      have heq : applySetOp e (.transpile fs) = e' := by
        simp only [applySetOp]; rw [hs]
      obtain ⟨_, he'⟩ := set_transpile_options_ok_inv hs
      subst he'
      rw [heq]; exact ⟨rfl, rfl, rfl⟩
  | run fs =>
    cases hs : e.set_run_options fs with
    | error err => simp [BaseExperiment.set_run_options] at hs
    | ok e' =>
      have heq : applySetOp e (.run fs) = e' := by
        simp only [applySetOp]; rw [hs]
      have he' := set_run_options_ok_inv hs
      subst he'
      rw [heq]; exact ⟨rfl, rfl, rfl⟩
  | analysis fs =>
    cases hs : e.set_analysis_options fs with
    | error err => simp [BaseExperiment.set_analysis_options] at hs
    | ok e' =>
      have heq : applySetOp e (.analysis fs) = e' := by
        simp only [applySetOp]; rw [hs]
      have he' := set_analysis_options_ok_inv hs
      subst he'
      rw [heq]; exact ⟨rfl, rfl, rfl⟩

theorem applySetOps_frame (e : BaseExperiment) (ops : List SetOp) :
    (applySetOps e ops).cls_name = e.cls_name ∧
    (applySetOps e ops).init_args = e.init_args ∧
    (applySetOps e ops).init_kwargs = e.init_kwargs := by
  induction ops generalizing e with
  | nil => exact ⟨rfl, rfl, rfl⟩
  | cons op ops ih =>
    have h1 := applySetOp_frame e op
    have h2 := ih (applySetOp e op)
    exact ⟨h1.1 ▸ h2.1, h1.2.1 ▸ h2.2.1, h1.2.2 ▸ h2.2.2⟩

theorem set_experiment_options_nil (e : BaseExperiment) :
    e.set_experiment_options [] = .ok e := rfl

theorem set_transpile_options_nil (e : BaseExperiment) :
    e.set_transpile_options [] = .ok e := by
  unfold BaseExperiment.set_transpile_options
  rw [if_neg (by simp [fieldKeys])]
  rfl

theorem set_run_options_nil (e : BaseExperiment) :
    e.set_run_options [] = .ok e := rfl

theorem isEmpty_guard_experiment (ret : BaseExperiment) (fs : List (String × PyVal)) :
    (if fs.isEmpty then Except.ok ret else ret.set_experiment_options fs) =
      ret.set_experiment_options fs := by
  cases fs with
  | nil => rw [set_experiment_options_nil]; rfl
  | cons p fs => rfl

theorem isEmpty_guard_transpile (ret : BaseExperiment) (fs : List (String × PyVal)) :
    (if fs.isEmpty then Except.ok ret else ret.set_transpile_options fs) =
      ret.set_transpile_options fs := by
  cases fs with
  | nil => rw [set_transpile_options_nil]; rfl
  | cons p fs => rfl

theorem isEmpty_guard_run (ret : BaseExperiment) (fs : List (String × PyVal)) :
    (if fs.isEmpty then Except.ok ret else ret.set_run_options fs) =
      ret.set_run_options fs := by
  cases fs with
  | nil => rw [set_run_options_nil]; rfl
  | cons p fs => rfl

theorem from_config_eval (cls : ExpClass) (c : ExperimentConfig)
    (r1 r2 r3 : BaseExperiment)
    (h1 : (mkExperiment cls c.args c.kwargs).set_experiment_options
        c.experiment_options = .ok r1)
    (h2 : r1.set_transpile_options c.transpile_options = .ok r2)
    (h3 : r2.set_run_options c.run_options = .ok r3) :
    from_config cls (.config c) = .ok r3 := by
  unfold from_config
  simp only []
  rw [isEmpty_guard_experiment, h1]
  simp only []
  rw [isEmpty_guard_transpile, h2]
  simp only []
  rw [isEmpty_guard_run, h3]

/-- C1: the claim as a whole is broken by the dict branch — line 259
executes `ExperimentConfig(**dict)`, splatting the builtin `dict` type
instead of the passed dict, so `from_config` raises `TypeError` on every
dict input.  The `ExperimentConfig` path does round-trip: reconstruction
yields the captured constructor args and kwargs and pointwise-equal
experiment, transpile and run option namespaces. -/
theorem C1_from_config_roundtrip_and_dict_bug (cls : ExpClass)
    (args : List PyVal) (kwargs : List (String × PyVal)) (ops : List SetOp)
    (d : List (String × PyVal)) :
    (∃ r, from_config cls (.config (BaseExperiment.config
        (applySetOps (mkExperiment cls args kwargs) ops))) = .ok r ∧
      r.init_args = args ∧ r.init_kwargs = kwargs ∧
      (∀ k, r.experiment_options.getattr k =
        (applySetOps (mkExperiment cls args kwargs) ops).experiment_options.getattr k) ∧
      (∀ k, r.transpile_options.getattr k =
        (applySetOps (mkExperiment cls args kwargs) ops).transpile_options.getattr k) ∧
      (∀ k, r.run_options.getattr k =
        (applySetOps (mkExperiment cls args kwargs) ops).run_options.getattr k)) ∧
    from_config cls (.dictArg d) = .error dictSplatError := by
  refine ⟨?_, rfl⟩
  have inv := optionsInvariant_applySetOps cls (mkExperiment cls args kwargs) ops
    (optionsInvariant_mk cls args kwargs)
  have hframe := applySetOps_frame (mkExperiment cls args kwargs) ops
  set e := applySetOps (mkExperiment cls args kwargs) ops with he
  have hargs : (BaseExperiment.config e).args = args := hframe.2.1
  have hkw : (BaseExperiment.config e).kwargs = kwargs := hframe.2.2
  have hfind : ((BaseExperiment.config e).experiment_options).find?
      (fun p => !((mkExperiment cls (BaseExperiment.config e).args
        (BaseExperiment.config e).kwargs).experiment_options.hasattr p.1)) = none := by
    apply List.find?_eq_none.mpr
    intro p hp
    simp only [BaseExperiment.config] at hp
    obtain ⟨k, hk, rfl⟩ := List.mem_map.mp hp
    intro hcon
    have hT : cls.default_experiment_options.hasattr k = true := by
      have h1 : e.experiment_options.hasattr k = true := inv.present .experiment k hk
      have h2 := inv.exp_keys_fixed k
      rw [h1] at h2
      exact h2.symm
    have hF : cls.default_experiment_options.hasattr k = false := by
      simpa [mkExperiment] using hcon
    rw [hT] at hF
    cases hF
  obtain ⟨r1, hok1⟩ : ∃ r1, (mkExperiment cls (BaseExperiment.config e).args
      (BaseExperiment.config e).kwargs).set_experiment_options
      ((BaseExperiment.config e).experiment_options) = .ok r1 := by
    unfold BaseExperiment.set_experiment_options
    rw [hfind]
    exact ⟨_, rfl⟩
  obtain ⟨_, hr1⟩ := set_experiment_options_ok_inv hok1
  have hr1exp : r1.experiment_options =
      (mkExperiment cls (BaseExperiment.config e).args
        (BaseExperiment.config e).kwargs).experiment_options.update_options
        ((BaseExperiment.config e).experiment_options) := by rw [hr1]
  have hr1transp : r1.transpile_options = cls.default_transpile_options := by
    rw [hr1]; rfl
  have hr1run : r1.run_options = cls.default_run_options := by
    rw [hr1]; rfl
  have hr1args : r1.init_args = (BaseExperiment.config e).args := by
    rw [hr1]; rfl
  have hr1kw : r1.init_kwargs = (BaseExperiment.config e).kwargs := by
    rw [hr1]; rfl
  have hfkT : fieldKeys ((BaseExperiment.config e).transpile_options) =
      e.set_transpile_options_keys := fieldKeys_map_mk _ _
  have hY : "initial_layout" ∉ fieldKeys ((BaseExperiment.config e).transpile_options) := by
    rw [hfkT]
    exact inv.no_initial_layout
  obtain ⟨r2, hok2⟩ : ∃ r2, r1.set_transpile_options
      ((BaseExperiment.config e).transpile_options) = .ok r2 := by
    unfold BaseExperiment.set_transpile_options
    rw [if_neg hY]
    exact ⟨_, rfl⟩
  obtain ⟨_, hr2⟩ := set_transpile_options_ok_inv hok2
  have hr2exp : r2.experiment_options = r1.experiment_options := by rw [hr2]
  have hr2transp : r2.transpile_options =
      r1.transpile_options.update_options
        ((BaseExperiment.config e).transpile_options) := by rw [hr2]
  have hr2run : r2.run_options = r1.run_options := by rw [hr2]
  have hr2args : r2.init_args = r1.init_args := by rw [hr2]
  have hr2kw : r2.init_kwargs = r1.init_kwargs := by rw [hr2]
  obtain ⟨r3, hok3⟩ : ∃ r3, r2.set_run_options
      ((BaseExperiment.config e).run_options) = .ok r3 := ⟨_, rfl⟩
  have hr3 := set_run_options_ok_inv hok3
  have hr3exp : r3.experiment_options = r2.experiment_options := by rw [hr3]
  have hr3transp : r3.transpile_options = r2.transpile_options := by rw [hr3]
  have hr3run : r3.run_options =
      r2.run_options.update_options ((BaseExperiment.config e).run_options) := by
    rw [hr3]
  have hr3args : r3.init_args = r2.init_args := by rw [hr3]
  have hr3kw : r3.init_kwargs = r2.init_kwargs := by rw [hr3]
  refine ⟨r3, from_config_eval cls (BaseExperiment.config e) r1 r2 r3 hok1 hok2 hok3,
    ?_, ?_, ?_, ?_, ?_⟩
  · rw [hr3args, hr2args, hr1args]
    exact hargs
  · rw [hr3kw, hr2kw, hr1kw]
    exact hkw
  · intro k
    rw [hr3exp, hr2exp, hr1exp]
    have hfkE : fieldKeys ((BaseExperiment.config e).experiment_options) =
        e.set_experiment_options_keys := fieldKeys_map_mk _ _
    by_cases hk : k ∈ e.set_experiment_options_keys
    · have hpres : e.experiment_options.hasattr k = true := inv.present .experiment k hk
      rw [← OptMap.getattr_isSome_iff_hasattr] at hpres
      obtain ⟨v, hv⟩ := Option.isSome_iff_exists.mp hpres
      rw [hv]
      apply OptMap.getattr_update_options_mem
      · rw [hfkE]
        exact inv.nodup .experiment
      · show (k, v) ∈ (BaseExperiment.config e).experiment_options
        simp only [BaseExperiment.config]
        apply List.mem_map.mpr
        exact ⟨k, hk, by simp [hv]⟩
    · have hnot : k ∉ fieldKeys ((BaseExperiment.config e).experiment_options) := by
        rw [hfkE]
        exact hk
      rw [OptMap.getattr_update_options_not_mem _ _ _ hnot]
      exact (inv.untracked_default .experiment k hk).symm
  · intro k
    rw [hr3transp, hr2transp, hr1transp]
    by_cases hk : k ∈ e.set_transpile_options_keys
    · have hpres : e.transpile_options.hasattr k = true := inv.present .transpile k hk
      rw [← OptMap.getattr_isSome_iff_hasattr] at hpres
      obtain ⟨v, hv⟩ := Option.isSome_iff_exists.mp hpres
      rw [hv]
      apply OptMap.getattr_update_options_mem
      · rw [hfkT]
        exact inv.nodup .transpile
      · show (k, v) ∈ (BaseExperiment.config e).transpile_options
        simp only [BaseExperiment.config]
        apply List.mem_map.mpr
        exact ⟨k, hk, by simp [hv]⟩
    · have hnot : k ∉ fieldKeys ((BaseExperiment.config e).transpile_options) := by
        rw [hfkT]
        exact hk
      rw [OptMap.getattr_update_options_not_mem _ _ _ hnot]
      exact (inv.untracked_default .transpile k hk).symm
  · intro k
    rw [hr3run, hr2run, hr1run]
    have hfkR : fieldKeys ((BaseExperiment.config e).run_options) =
        e.set_run_options_keys := fieldKeys_map_mk _ _
    by_cases hk : k ∈ e.set_run_options_keys
    · have hpres : e.run_options.hasattr k = true := inv.present .run k hk
      rw [← OptMap.getattr_isSome_iff_hasattr] at hpres
      obtain ⟨v, hv⟩ := Option.isSome_iff_exists.mp hpres
      rw [hv]
      apply OptMap.getattr_update_options_mem
      · rw [hfkR]
        exact inv.nodup .run
      · show (k, v) ∈ (BaseExperiment.config e).run_options
        simp only [BaseExperiment.config]
        apply List.mem_map.mpr
        exact ⟨k, hk, by simp [hv]⟩
    · have hnot : k ∉ fieldKeys ((BaseExperiment.config e).run_options) := by
        rw [hfkR]
        exact hk
      rw [OptMap.getattr_update_options_not_mem _ _ _ hnot]
      exact (inv.untracked_default .run k hk).symm

/-- Per-node state of an experiment in a composite tree: the backend and
the option namespaces that `_add_job_metadata` records (run options are
passed to that call, not read from the instance). -/
structure ExpNodeState where
  backend : Option Nat
  experiment_options : OptMap
  transpile_options : OptMap
  analysis_options : OptMap
deriving DecidableEq

/-- An experiment together with its component experiments:
a `CompositeExperiment` holds the list of its components
(`self._experiments`), a plain `BaseExperiment` is a leaf. -/
inductive ExpTree where
  | node (s : ExpNodeState) (children : List ExpTree)

/-- `CompositeExperiment._set_backend`
(`composite_experiment.py` lines 83-86): store the backend on the node
itself (the `BaseExperiment._set_backend` super call) and recurse into
every component; on a leaf only the store happens. -/
def set_backend (b : Nat) : ExpTree → ExpTree
  | .node s cs =>
      .node { s with backend := some b }
        (cs.attach.map (fun c => set_backend b c.1))
termination_by e => sizeOf e
decreasing_by
  simp_wf
  have := List.sizeOf_lt_of_mem c.2
  omega

/-- Claim-side check: every node of the tree, at every depth, has its
backend equal to `b`. -/
def allBackendEq (b : Nat) : ExpTree → Bool
  | .node s cs =>
      (s.backend == some b) && cs.attach.all (fun c => allBackendEq b c.1)
termination_by e => sizeOf e
decreasing_by
  simp_wf
  have := List.sizeOf_lt_of_mem c.2
  omega

/-- `CompositeExperiment.__init__` (lines 33-50): store the components,
then `BaseExperiment.__init__` starts from `self._backend = None` and,
when a backend is passed, assigns it through the overridden
`_set_backend`. -/
def composite_init (s : ExpNodeState) (children : List ExpTree)
    (backend : Option Nat) : ExpTree :=
  match backend with
  | some b => set_backend b (.node { s with backend := none } children)
  | none => .node { s with backend := none } children

theorem ExpTree.comp_tree_ind (P : ExpTree → Prop)
    (h : ∀ s cs, (∀ c ∈ cs, P c) → P (.node s cs)) : ∀ e, P e := by
  have key : ∀ n e, sizeOf e < n → P e := by
    intro n
    induction n with
    | zero => intro e he; exact absurd he (Nat.not_lt_zero _)
    | succ n ih =>
      intro e he
      cases e with
      | node s cs =>
        apply h
        intro c hc
        apply ih
        have h1 := List.sizeOf_lt_of_mem hc
        have h2 : sizeOf (ExpTree.node s cs) = 1 + sizeOf s + sizeOf cs := by
          simp
        omega
  exact fun e => key (sizeOf e + 1) e (Nat.lt_succ_self _)

/-- C4: assigning a backend to a composite experiment — through
`_set_backend` (reached by the constructor when a backend is passed, by
the `backend` property setter, and by `run` on its copy when a backend
argument overrides) — leaves every node of the tree, at every nesting
depth, with exactly that backend. -/
theorem C4_recursive_backend_forwarding (b : Nat) (e : ExpTree)
    (s : ExpNodeState) (children : List ExpTree) :
    allBackendEq b (set_backend b e) = true ∧
    allBackendEq b (composite_init s children (some b)) = true := by
  have main : ∀ e, allBackendEq b (set_backend b e) = true := by
    apply ExpTree.comp_tree_ind
    intro s' cs ih
    rw [set_backend, allBackendEq]
    simp [List.all_eq_true]
    intro c hc
    exact ih c hc
  exact ⟨main e, main (.node { s with backend := none } children)⟩

/-- One entry of the `job_metadata` list that
`BaseExperiment._add_job_metadata` (lines 537-552) appends: the job ids
plus copies of the current experiment, transpile and analysis option
namespaces and the run options passed to the call. -/
structure JobMeta where
  job_ids : List String
  experiment_options : OptMap
  transpile_options : OptMap
  analysis_options : OptMap
  run_options : OptMap
deriving DecidableEq

/-- The `ExperimentData` container tree: its own `job_metadata` list and,
for a `CompositeExperimentData`, the component experiment data. -/
inductive DataTree where
  | node (job_metadata : List JobMeta) (children : List DataTree)

/-- The metadata record `_add_job_metadata` builds for one experiment. -/
def jobMetaOf (s : ExpNodeState) (jobIds : List String)
    (runOpts : OptMap) : JobMeta :=
  { job_ids := jobIds
    experiment_options := s.experiment_options
    transpile_options := s.transpile_options
    analysis_options := s.analysis_options
    run_options := runOpts }

mutual

/-- `CompositeExperiment._add_job_metadata`
(`composite_experiment.py` lines 88-107): first the super call appends
this experiment's own record to its own data, then each of the
`num_experiments` components, in index order, appends to
`experiment_data.component_experiment_data(i)`, recursing through nested
composites; a leaf stops after its own record.  A missing component data
entry is the `IndexError` Python would raise (state changes already made
before such an error are not tracked by this embedding). -/
def add_job_metadata (jobIds : List String) (runOpts : OptMap) :
    ExpTree → DataTree → Except PyErr DataTree
  | .node s cs, .node metas ds =>
    match addMetaList jobIds runOpts cs ds with
    | .error err => .error err
    | .ok ds' => .ok (.node (metas ++ [jobMetaOf s jobIds runOpts]) ds')
termination_by e _ => sizeOf e
decreasing_by
  all_goals simp_wf

/-- The `for i in range(self.num_experiments)` loop of
`_add_job_metadata`, walking component experiments and component data in
lockstep; component data entries beyond the number of components are left
untouched. -/
def addMetaList (jobIds : List String) (runOpts : OptMap) :
    List ExpTree → List DataTree → Except PyErr (List DataTree)
  | [], ds => .ok ds
  | _ :: _, [] => .error .indexError
  | c :: cs, d :: ds =>
    match add_job_metadata jobIds runOpts c d with
    | .error err => .error err
    | .ok d' =>
      match addMetaList jobIds runOpts cs ds with
      | .error err => .error err
      | .ok ds' => .ok (d' :: ds')
termination_by cs _ => sizeOf cs
decreasing_by
  all_goals simp_wf
  all_goals omega

end

mutual

/-- Shape compatibility: at every node reached through the experiment
tree, the data tree offers at least as many component data entries as the
experiment has components. -/
def shapeOk : ExpTree → DataTree → Bool
  | .node _ cs, .node _ ds => shapeOkList cs ds
termination_by e _ => sizeOf e
decreasing_by
  all_goals simp_wf

/-- List form of `shapeOk`. -/
def shapeOkList : List ExpTree → List DataTree → Bool
  | [], _ => true
  | _ :: _, [] => false
  | c :: cs, d :: ds => shapeOk c d && shapeOkList cs ds
termination_by cs _ => sizeOf cs
decreasing_by
  all_goals simp_wf
  all_goals omega

end

/-- Node of an experiment tree at a path of component indices. -/
def ExpTree.getPath : ExpTree → List Nat → Option ExpTree
  | t, [] => some t
  | .node _ cs, i :: p =>
    match cs.get? i with
    | some c => c.getPath p
    | none => none

/-- Node of a data tree at a path of component indices. -/
def DataTree.getPath : DataTree → List Nat → Option DataTree
  | t, [] => some t
  | .node _ ds, i :: p =>
    match ds.get? i with
    | some d => d.getPath p
    | none => none

/-- The `job_metadata` list of a data node. -/
def DataTree.metas : DataTree → List JobMeta
  | .node m _ => m

/-- The `job_metadata` list of the data node at a path. -/
def DataTree.metasAt (d : DataTree) (path : List Nat) : Option (List JobMeta) :=
  (d.getPath path).map DataTree.metas

theorem addMetaList_spec (jobIds : List String) (runOpts : OptMap) :
    ∀ (cs : List ExpTree) (ds : List DataTree),
    (∀ c ∈ cs, ∀ d0, shapeOk c d0 = true →
      ∃ d0', add_job_metadata jobIds runOpts c d0 = .ok d0') →
    shapeOkList cs ds = true →
    ∃ ds', addMetaList jobIds runOpts cs ds = .ok ds' ∧
      (∀ i, cs.get? i = none → ds'.get? i = ds.get? i) ∧
      (∀ i c, cs.get? i = some c → ∃ d0 d0', ds.get? i = some d0 ∧
        ds'.get? i = some d0' ∧ add_job_metadata jobIds runOpts c d0 = .ok d0' ∧
        shapeOk c d0 = true) := by
  intro cs
  induction cs with
  | nil =>
    intro ds _ _
    refine ⟨ds, by simp [addMetaList], fun i _ => rfl, fun i c hc => by cases hc⟩
  | cons c cs ih =>
    intro ds hP hs
    cases ds with
    | nil => simp [shapeOkList] at hs
    | cons d0 ds0 =>
      rw [shapeOkList, Bool.and_eq_true] at hs
      obtain ⟨d0', hadd⟩ := hP c (List.mem_cons_self c cs) d0 hs.1
      obtain ⟨ds0', haddL, hnone, hsome⟩ :=
        ih ds0 (fun c' hc' => hP c' (List.mem_cons_of_mem c hc')) hs.2
      refine ⟨d0' :: ds0', by simp [addMetaList, hadd, haddL], ?_, ?_⟩
      · intro i hi
        cases i with
        | zero => simp at hi
        | succ n =>
          simp only [List.get?_cons_succ] at hi ⊢
          exact hnone n hi
      · intro i c' hc'
        cases i with
        | zero =>
          simp only [List.get?_cons_zero, Option.some.injEq] at hc'
          subst hc'
          exact ⟨d0, d0', rfl, rfl, hadd, hs.1⟩
        | succ n =>
          simp only [List.get?_cons_succ] at hc' ⊢
          exact hsome n c' hc'

/-- C6: on shape-compatible experiment and data trees,
`_add_job_metadata` succeeds, and the resulting data tree records, at
every node position occupied by an experiment, the old `job_metadata`
list with exactly that experiment's record (job ids plus current
experiment, transpile and analysis options plus the passed run options)
appended; every data node with no corresponding experiment node is left
untouched — the composite appends its own record and recurses into its
components in index order. -/
theorem C6_recursive_metadata_propagation (jobIds : List String)
    (runOpts : OptMap) (e : ExpTree) (d : DataTree)
    (hshape : shapeOk e d = true) :
    ∃ d', add_job_metadata jobIds runOpts e d = .ok d' ∧
      (∀ path s cs metas ds, e.getPath path = some (.node s cs) →
        d.getPath path = some (.node metas ds) →
        d'.metasAt path = some (metas ++ [jobMetaOf s jobIds runOpts])) ∧
      (∀ path, e.getPath path = none → d'.getPath path = d.getPath path) := by
  have main : ∀ e : ExpTree, ∀ d : DataTree, shapeOk e d = true →
      ∃ d', add_job_metadata jobIds runOpts e d = .ok d' ∧
      (∀ path s cs metas ds, e.getPath path = some (.node s cs) →
        d.getPath path = some (.node metas ds) →
        d'.metasAt path = some (metas ++ [jobMetaOf s jobIds runOpts])) ∧
      (∀ path, e.getPath path = none → d'.getPath path = d.getPath path) := by
    apply ExpTree.comp_tree_ind
    intro s cs ih d hs
    cases d with
    | node metas ds =>
      have hs' : shapeOkList cs ds = true := by
        rw [shapeOk] at hs
        exact hs
      obtain ⟨ds', haddL, hnone, hsome⟩ := addMetaList_spec jobIds runOpts cs ds
        (fun c hc d0 hd0 => (ih c hc d0 hd0).imp (fun d0' h => h.1)) hs'
      refine ⟨.node (metas ++ [jobMetaOf s jobIds runOpts]) ds',
        by simp [add_job_metadata, haddL], ?_, ?_⟩
      · intro path s2 cs2 metas2 ds2 h1 h2
        cases path with
        | nil =>
          rw [ExpTree.getPath] at h1
          rw [DataTree.getPath] at h2
          simp only [Option.some.injEq, ExpTree.node.injEq] at h1
          simp only [Option.some.injEq, DataTree.node.injEq] at h2
          obtain ⟨hs2, _⟩ := h1
          obtain ⟨hm2, _⟩ := h2
          subst hs2
          subst hm2
          simp [DataTree.metasAt, DataTree.getPath, DataTree.metas]
        | cons i p =>
          rw [ExpTree.getPath] at h1
          rw [DataTree.getPath] at h2
          cases hci : cs.get? i with
          | none => rw [hci] at h1; cases h1
          | some c =>
            rw [hci] at h1
            obtain ⟨d0, d0', hd0, hd0', haddc, hshapec⟩ := hsome i c hci
            rw [hd0] at h2
            have hmem : c ∈ cs := List.get?_mem hci
            obtain ⟨dc, haddc2, hprop1, _⟩ := ih c hmem d0 hshapec
            rw [haddc] at haddc2
            injection haddc2 with hdc
            subst hdc
            have hd0g : ds'[i]? = some d0' := by
              rw [← List.get?_eq_getElem?]
              exact hd0'
            have : DataTree.metasAt (.node (metas ++ [jobMetaOf s jobIds runOpts]) ds') (i :: p) =
                d0'.metasAt p := by
              simp [DataTree.metasAt, DataTree.getPath, hd0g]
            rw [this]
            exact hprop1 p s2 cs2 metas2 ds2 h1 h2
      · intro path h1
        cases path with
        | nil => rw [ExpTree.getPath] at h1; cases h1
        | cons i p =>
          rw [ExpTree.getPath] at h1
          cases hci : cs.get? i with
          | none =>
            show DataTree.getPath _ (i :: p) = DataTree.getPath _ (i :: p)
            rw [DataTree.getPath, DataTree.getPath]
            rw [hnone i hci]
          | some c =>
            rw [hci] at h1
            obtain ⟨d0, d0', hd0, hd0', haddc, hshapec⟩ := hsome i c hci
            have hmem : c ∈ cs := List.get?_mem hci
            obtain ⟨dc, haddc2, _, hprop2⟩ := ih c hmem d0 hshapec
            rw [haddc] at haddc2
            injection haddc2 with hdc
            subst hdc
            show DataTree.getPath _ (i :: p) = DataTree.getPath _ (i :: p)
            rw [DataTree.getPath, DataTree.getPath, hd0, hd0']
            exact hprop2 p h1
  exact main e d hshape

/-- A concrete two-component composite experiment. -/
def c6exp : ExpTree :=
  .node ⟨none, [], [("optimization_level", PyVal.int 0)], []⟩
    [.node ⟨none, [("delays", PyVal.pyNone)], [], []⟩ [],
     .node ⟨none, [], [], [("plot", PyVal.bool true)]⟩ []]

/-- Matching experiment data for `c6exp`. -/
def c6data : DataTree :=
  .node [] [.node [] [], .node [] []]

/-- C6 witness: the shape hypothesis holds for the concrete
two-component composite, so metadata propagation succeeds on it. -/
theorem C6_recursive_metadata_propagation_witness :
    shapeOk c6exp c6data = true ∧
    (∃ d', add_job_metadata ["job-0"] [("shots", PyVal.int 1024)] c6exp c6data = .ok d' ∧
      (∀ path s cs metas ds, c6exp.getPath path = some (.node s cs) →
        c6data.getPath path = some (.node metas ds) →
        d'.metasAt path =
          some (metas ++ [jobMetaOf s ["job-0"] [("shots", PyVal.int 1024)]])) ∧
      (∀ path, c6exp.getPath path = none →
        d'.getPath path = c6data.getPath path)) := by
  have hs : shapeOk c6exp c6data = true := by
    simp [c6exp, c6data, shapeOk, shapeOkList]
  exact ⟨hs, C6_recursive_metadata_propagation ["job-0"]
    [("shots", PyVal.int 1024)] c6exp c6data hs⟩

/-- Heap of qiskit `Options` objects: mutable attribute bags referenced
by index.  `Options.update_options` mutates the referenced object in
place, which is why `BaseExperiment.copy` must re-allocate them. -/
abbrev Heap := List OptMap

/-- Read an `Options` object through its reference. -/
def readRef (σ : Heap) (r : Nat) : OptMap := σ.getD r []

/-- Mutate an `Options` object in place through its reference. -/
def writeRef (σ : Heap) (r : Nat) (m : OptMap) : Heap := σ.set r m

/-- Heap-level state of one experiment object: the `_backend` attribute
(held by value, per object) and references to its four `Options`
objects, in the re-allocation order of `BaseExperiment.copy`
(lines 226-230: experiment, run, transpile, analysis). -/
structure HExpState where
  backend : Option Nat
  eoRef : Nat
  ruRef : Nat
  trRef : Nat
  anRef : Nat
deriving DecidableEq

/-- An experiment object tree over the options heap: a composite holds
its component experiments, a plain experiment is a leaf. -/
inductive HExp where
  | node (s : HExpState) (children : List HExp)

/-- Reference of the `Options` object of one namespace. -/
def nsRef (s : HExpState) : NsTag → Nat
  | .experiment => s.eoRef
  | .transpile => s.trRef
  | .run => s.ruRef
  | .analysis => s.anRef

/-- All option references of one node. -/
def refsOfState (s : HExpState) : List Nat :=
  [s.eoRef, s.ruRef, s.trRef, s.anRef]

/-- All option references reachable in an experiment tree. -/
def refsOf : HExp → List Nat
  | .node s cs =>
      refsOfState s ++ (cs.attach.map (fun c => refsOf c.1)).flatten
termination_by e => sizeOf e
decreasing_by
  simp_wf
  have := List.sizeOf_lt_of_mem c.2
  omega

mutual

/-- `BaseExperiment.copy` (lines 221-231) and its
`CompositeExperiment.copy` override (lines 76-81): `copy.copy(self)`
makes a new object sharing the `Options` references, then the four
options are re-allocated as fresh copies of their current contents (in
source order experiment, run, transpile, analysis), and a composite
additionally replaces its children with recursive copies. -/
def copyH : HExp → Heap → HExp × Heap
  | .node s cs, σ =>
    let n := σ.length
    let σ1 := σ ++ [readRef σ s.eoRef, readRef σ s.ruRef,
                    readRef σ s.trRef, readRef σ s.anRef]
    let rec_result := copyHList cs σ1
    (.node ⟨s.backend, n, n + 1, n + 2, n + 3⟩ rec_result.1, rec_result.2)
termination_by e _ => sizeOf e
decreasing_by
  simp_wf

/-- The `[exp.copy() for exp in self._experiments]` comprehension of
`CompositeExperiment.copy`, threading the heap left to right. -/
def copyHList : List HExp → Heap → List HExp × Heap
  | [], σ => ([], σ)
  | c :: cs, σ =>
    let r1 := copyH c σ
    let r2 := copyHList cs r1.2
    (r1.1 :: r2.1, r2.2)
termination_by cs _ => sizeOf cs
decreasing_by
  all_goals simp_wf
  all_goals omega

end

/-- Node of a heap-level experiment tree at a path of component
indices. -/
def HExp.getPath : HExp → List Nat → Option HExp
  | t, [] => some t
  | .node _ cs, i :: p =>
    match cs.get? i with
    | some c => c.getPath p
    | none => none

/-- One option-setting call addressed to the component at `path` of the
experiment `root`: the heap effect of `set_experiment_options`,
`set_transpile_options`, `set_run_options` or `set_analysis_options`
(lines 417-505) on the heap — a failing call (undeclared experiment
option, or `initial_layout` for transpile) raises before mutating, so it
leaves the heap unchanged. -/
def applyHOp (root : HExp) (path : List Nat) (ns : NsTag)
    (fields : List (String × PyVal)) (σ : Heap) : Heap :=
  match root.getPath path with
  | none => σ
  | some (.node s _) =>
    let r := nsRef s ns
    let m := readRef σ r
    if ns = .experiment ∧ ¬ (fields.all (fun p => m.hasattr p.1) = true) then σ
    else if ns = .transpile ∧ "initial_layout" ∈ fieldKeys fields then σ
    else writeRef σ r (m.update_options fields)

/-- One option-setting call. -/
structure HCall where
  path : List Nat
  ns : NsTag
  fields : List (String × PyVal)

/-- A sequence of option-setting calls against components of `root`. -/
def applyHOps (root : HExp) (ops : List HCall) (σ : Heap) : Heap :=
  ops.foldl (fun σ1 op => applyHOp root op.path op.ns op.fields σ1) σ

/-- The backend assignment `run` performs on its working experiment
(`_set_backend`, recursive for composites; heap untouched since
`_backend` is a per-object attribute). -/
def setBackendH (b : Nat) : HExp → HExp
  | .node s cs =>
      .node { s with backend := some b }
        (cs.attach.map (fun c => setBackendH b c.1))
termination_by e => sizeOf e
decreasing_by
  simp_wf
  have := List.sizeOf_lt_of_mem c.2
  omega

/-- `BaseExperiment.run` with an explicit backend argument (lines
291-295): `experiment = self.copy()` followed by
`experiment._set_backend(backend)`; the original object is not the one
operated on. -/
def runPrep (b : Nat) (e : HExp) (σ : Heap) : HExp × Heap :=
  (setBackendH b (copyH e σ).1, (copyH e σ).2)

theorem HExp.heap_tree_ind (P : HExp → Prop)
    (h : ∀ s cs, (∀ c ∈ cs, P c) → P (.node s cs)) : ∀ e, P e := by
  have key : ∀ n e, sizeOf e < n → P e := by
    intro n
    induction n with
    | zero => intro e he; exact absurd he (Nat.not_lt_zero _)
    | succ n ih =>
      intro e he
      cases e with
      | node s cs =>
        apply h
        intro c hc
        apply ih
        have h1 := List.sizeOf_lt_of_mem hc
        have h2 : sizeOf (HExp.node s cs) = 1 + sizeOf s + sizeOf cs := by
          simp
        omega
  exact fun e => key (sizeOf e + 1) e (Nat.lt_succ_self _)

theorem mem_refsOf_node (s : HExpState) (cs : List HExp) (r : Nat) :
    r ∈ refsOf (.node s cs) ↔ r ∈ refsOfState s ∨ ∃ c ∈ cs, r ∈ refsOf c := by
  rw [refsOf]
  rw [List.mem_append]
  constructor
  · rintro (h | h)
    · exact Or.inl h
    · right
      rw [List.mem_flatten] at h
      obtain ⟨l, hl, hr⟩ := h
      rw [List.mem_map] at hl
      obtain ⟨c, _, rfl⟩ := hl
      exact ⟨c.1, c.2, hr⟩
  · rintro (h | ⟨c, hc, hr⟩)
    · exact Or.inl h
    · right
      rw [List.mem_flatten]
      exact ⟨refsOf c, List.mem_map.mpr ⟨⟨c, hc⟩, List.mem_attach _ _, rfl⟩, hr⟩

theorem readRef_writeRef_ne (σ : Heap) (r r' : Nat) (m : OptMap)
    (h : r' ≠ r) : readRef (writeRef σ r' m) r = readRef σ r := by
  unfold readRef writeRef
  rw [List.getD_eq_getElem?_getD, List.getD_eq_getElem?_getD,
    List.getElem?_set_ne h]

theorem readRef_append (σ Δ : Heap) (r : Nat) (h : r < σ.length) :
    readRef (σ ++ Δ) r = readRef σ r := by
  unfold readRef
  exact List.getD_append σ Δ [] r h

theorem copyH_spec : ∀ e : HExp, ∀ σ : Heap,
    σ.length ≤ ((copyH e σ).2).length ∧
    (∀ r, r < σ.length → readRef (copyH e σ).2 r = readRef σ r) ∧
    (∀ r ∈ refsOf (copyH e σ).1, σ.length ≤ r) := by
  apply HExp.heap_tree_ind
  intro s cs ih σ
  have hlist : ∀ cs' : List HExp, (∀ c ∈ cs', ∀ σ1 : Heap,
      σ1.length ≤ ((copyH c σ1).2).length ∧
      (∀ r, r < σ1.length → readRef (copyH c σ1).2 r = readRef σ1 r) ∧
      (∀ r ∈ refsOf (copyH c σ1).1, σ1.length ≤ r)) →
      ∀ σ1 : Heap,
      σ1.length ≤ ((copyHList cs' σ1).2).length ∧
      (∀ r, r < σ1.length → readRef (copyHList cs' σ1).2 r = readRef σ1 r) ∧
      (∀ c' ∈ (copyHList cs' σ1).1, ∀ r ∈ refsOf c', σ1.length ≤ r) := by
    intro cs'
    induction cs' with
    | nil =>
      intro _ σ1
      rw [copyHList]
      exact ⟨le_refl _, fun r _ => rfl, fun c' hc' => by cases hc'⟩
    | cons c cs'' ihl =>
      intro hP σ1
      obtain ⟨hlen1, hread1, hfresh1⟩ := hP c (List.mem_cons_self c cs'') σ1
      obtain ⟨hlen2, hread2, hfresh2⟩ :=
        ihl (fun c' hc' => hP c' (List.mem_cons_of_mem c hc')) (copyH c σ1).2
      rw [copyHList]
      refine ⟨le_trans hlen1 hlen2, ?_, ?_⟩
      · intro r hr
        rw [hread2 r (lt_of_lt_of_le hr hlen1), hread1 r hr]
      · intro c' hc' r hr
        rcases List.mem_cons.mp hc' with h | h
        · subst h
          exact hfresh1 r hr
        · exact le_trans hlen1 (hfresh2 c' h r hr)
  rw [copyH]
  obtain ⟨hlenL, hreadL, hfreshL⟩ := hlist cs
    (fun c hc σ1 => ih c hc σ1)
    (σ ++ [readRef σ s.eoRef, readRef σ s.ruRef,
           readRef σ s.trRef, readRef σ s.anRef])
  have hlen4 : σ.length ≤ (σ ++ [readRef σ s.eoRef, readRef σ s.ruRef,
      readRef σ s.trRef, readRef σ s.anRef]).length := by
    simp
  refine ⟨le_trans hlen4 hlenL, ?_, ?_⟩
  · intro r hr
    rw [hreadL r (lt_of_lt_of_le hr hlen4), readRef_append _ _ _ hr]
  · intro r hr
    rw [mem_refsOf_node] at hr
    rcases hr with h | ⟨c, hc, hrc⟩
    · simp [refsOfState] at h
      rcases h with h | h | h | h <;> omega
    · exact le_trans hlen4 (hfreshL c hc r hrc)

theorem refsOfState_sub_refsOf (path : List Nat) :
    ∀ (root : HExp) (s : HExpState) (cs : List HExp),
    root.getPath path = some (.node s cs) →
    ∀ r ∈ refsOfState s, r ∈ refsOf root := by
  induction path with
  | nil =>
    intro root s cs h r hr
    cases root with
    | node s0 cs0 =>
      rw [HExp.getPath] at h
      simp only [Option.some.injEq, HExp.node.injEq] at h
      obtain ⟨hs, _⟩ := h
      subst hs
      exact (mem_refsOf_node _ _ _).mpr (Or.inl hr)
  | cons i p ih =>
    intro root s cs h r hr
    cases root with
    | node s0 cs0 =>
      rw [HExp.getPath] at h
      cases hci : cs0.get? i with
      | none => rw [hci] at h; cases h
      | some c =>
        rw [hci] at h
        exact (mem_refsOf_node _ _ _).mpr
          (Or.inr ⟨c, List.get?_mem hci, ih c s cs h r hr⟩)

theorem applyHOp_outside (root : HExp) (path : List Nat) (ns : NsTag)
    (fields : List (String × PyVal)) (σ : Heap) (r : Nat)
    (h : r ∉ refsOf root) :
    readRef (applyHOp root path ns fields σ) r = readRef σ r := by
  unfold applyHOp
  cases hp : root.getPath path with
  | none => rfl
  | some t =>
    cases t with
    | node s cs =>
      have hrr : nsRef s ns ∈ refsOf root := by
        apply refsOfState_sub_refsOf path root s cs hp
        cases ns <;> simp [nsRef, refsOfState]
      have hne : nsRef s ns ≠ r := fun hh => h (hh ▸ hrr)
      simp only []
      split_ifs with h1 h2
      · rfl
      · rfl
      · exact readRef_writeRef_ne σ r (nsRef s ns) _ hne

theorem applyHOps_outside (root : HExp) (ops : List HCall) (σ : Heap)
    (r : Nat) (h : r ∉ refsOf root) :
    readRef (applyHOps root ops σ) r = readRef σ r := by
  induction ops generalizing σ with
  | nil => rfl
  | cons op ops ih =>
    show readRef (applyHOps root ops (applyHOp root op.path op.ns op.fields σ)) r = _
    rw [ih (applyHOp root op.path op.ns op.fields σ),
      applyHOp_outside root op.path op.ns op.fields σ r h]

theorem mem_refsOf_setBackendH (b : Nat) :
    ∀ t : HExp, ∀ r : Nat, r ∈ refsOf (setBackendH b t) ↔ r ∈ refsOf t := by
  have key : ∀ t : HExp, ∀ r : Nat,
      (r ∈ refsOf (setBackendH b t) ↔ r ∈ refsOf t) := by
    apply HExp.heap_tree_ind
      (P := fun t => ∀ r, r ∈ refsOf (setBackendH b t) ↔ r ∈ refsOf t)
    intro s cs ih r
    rw [setBackendH]
    rw [mem_refsOf_node, mem_refsOf_node]
    constructor
    · rintro (h | ⟨c', hc', hr⟩)
      · exact Or.inl h
      · right
        rw [List.mem_map] at hc'
        obtain ⟨⟨c, hc⟩, _, rfl⟩ := hc'
        exact ⟨c, hc, (ih c hc r).mp hr⟩
    · rintro (h | ⟨c, hc, hr⟩)
      · exact Or.inl h
      · right
        refine ⟨setBackendH b c, ?_, (ih c hc r).mpr hr⟩
        rw [List.mem_map]
        exact ⟨⟨c, hc⟩, List.mem_attach _ _, rfl⟩
  exact key

/-- C8: copying an experiment allocates fresh `Options` objects for the
copy (and, recursively, for every component of a composite), so the
copy's option references are disjoint from the original's; therefore the
copy itself, any sequence of option-setting calls on any components of
the copy, and the `run(backend=b)` path — which operates on
`self.copy()` with the backend assigned to that copy — all leave every
option namespace of the original experiment, read through its own
references, unchanged (and the original object's `_backend` attribute,
held by value per object, is never the one assigned). -/
theorem C8_copy_and_run_do_not_mutate_original (e : HExp) (σ : Heap)
    (ops : List HCall) (b : Nat)
    (hvalid : ∀ r ∈ refsOf e, r < σ.length) :
    (∀ r ∈ refsOf e, readRef (copyH e σ).2 r = readRef σ r) ∧
    (∀ r ∈ refsOf (copyH e σ).1, σ.length ≤ r) ∧
    (∀ r ∈ refsOf e,
      readRef (applyHOps (copyH e σ).1 ops (copyH e σ).2) r = readRef σ r) ∧
    (∀ r ∈ refsOf e,
      readRef (applyHOps (runPrep b e σ).1 ops (runPrep b e σ).2) r =
        readRef σ r) := by
  obtain ⟨_, hread, hfresh⟩ := copyH_spec e σ
  have hdisj : ∀ r ∈ refsOf e, r ∉ refsOf (copyH e σ).1 := by
    intro r hr hcon
    have := hfresh r hcon
    have := hvalid r hr
    omega
  refine ⟨fun r hr => hread r (hvalid r hr), hfresh, ?_, ?_⟩
  · intro r hr
    rw [applyHOps_outside _ _ _ _ (hdisj r hr), hread r (hvalid r hr)]
  · intro r hr
    have hdisj2 : r ∉ refsOf (runPrep b e σ).1 := by
      intro hcon
      exact hdisj r hr ((mem_refsOf_setBackendH b (copyH e σ).1 r).mp hcon)
    show readRef (applyHOps (runPrep b e σ).1 ops (copyH e σ).2) r = _
    rw [applyHOps_outside _ _ _ _ hdisj2, hread r (hvalid r hr)]

/-- A concrete experiment for the C8 witness: a leaf whose four option
references are the four cells of a four-cell heap. -/
def c8exp : HExp := .node ⟨none, 0, 1, 2, 3⟩ []

/-- The heap holding `c8exp`'s options at their defaults. -/
def c8heap : Heap :=
  [[], [("meas_level", PyVal.int 2)], [("optimization_level", PyVal.int 0)], []]

/-- C8 witness: the validity hypothesis holds for the concrete leaf
experiment, so copying, setting options on the copy, and the run
backend-override path all leave its option cells unchanged. -/
theorem C8_copy_and_run_do_not_mutate_original_witness :
    (∀ r ∈ refsOf c8exp, r < c8heap.length) ∧
    ((∀ r ∈ refsOf c8exp, readRef (copyH c8exp c8heap).2 r = readRef c8heap r) ∧
     (∀ r ∈ refsOf (copyH c8exp c8heap).1, c8heap.length ≤ r) ∧
     (∀ r ∈ refsOf c8exp,
       readRef (applyHOps (copyH c8exp c8heap).1
         [⟨[], .run, [("shots", PyVal.int 4096)]⟩] (copyH c8exp c8heap).2) r =
         readRef c8heap r) ∧
     (∀ r ∈ refsOf c8exp,
       readRef (applyHOps (runPrep 7 c8exp c8heap).1
         [⟨[], .run, [("shots", PyVal.int 4096)]⟩] (runPrep 7 c8exp c8heap).2) r =
         readRef c8heap r)) := by
  have hvalid : ∀ r ∈ refsOf c8exp, r < c8heap.length := by
    intro r hr
    rw [c8exp, refsOf] at hr
    simp [refsOfState, c8heap] at hr ⊢
    rcases hr with h | h | h | h <;> omega
  exact ⟨hvalid, C8_copy_and_run_do_not_mutate_original c8exp c8heap
    [⟨[], .run, [("shots", PyVal.int 4096)]⟩] 7 hvalid⟩
